import Mathlib

/-!
# Verification of the sfp transitive dependency resolver

Shallow embedding of `TransitiveDependencyResolver`
(src/core/package/dependencies/TransitiveDependencyResolver.ts) and proofs
about the claims C1..C10.

Modelling conventions:
* JavaScript `Map` objects (which preserve insertion order, and whose
  `set` keeps the original position of an existing key) are modelled as
  association lists `List (String × β)` with `alGet`/`alSet`.
* JS `Set` objects are modelled as duplicate-free `List`s in insertion order.
* A possibly-`undefined` version string is `Option String`; JS falsiness of a
  version value (`undefined`, `null` or `""`) is `jsFalsy`.
* `compareVersions` returns a JS number that can be `NaN`
  (`parseInt` of a non-numeric build segment); we model the result as
  `Option Int` with `none` for `NaN`.  The only consumption of the result in
  the source is `... > 0`, modelled by `cmpGt` (`NaN > 0` is `false` in JS).
* Thrown exceptions are modelled with `Except String`.
* Strings are processed as `List Char` (`String.toList`); the char-level
  split/join functions below implement exactly JS `String.split('.')` /
  `Array.join('.')`.
-/

namespace Sfp

instance {ε α : Type} [DecidableEq ε] [DecidableEq α] : DecidableEq (Except ε α) :=
  fun x y =>
    match x, y with
    | .ok a, .ok b => if h : a = b then isTrue (by rw [h]) else isFalse (by simp [h])
    | .error a, .error b => if h : a = b then isTrue (by rw [h]) else isFalse (by simp [h])
    | .ok _, .error _ => isFalse (by simp)
    | .error _, .ok _ => isFalse (by simp)

/-- A dependency declaration / resolved dependency edge:
the `{ package: string; versionNumber?: string }` record of the source. -/
structure Dep where
  package : String
  versionNumber : Option String
deriving DecidableEq, Repr

/-- Association-list lookup: first entry with the given key
(JS `Map.prototype.get`). -/
def alGet {β : Type} : List (String × β) → String → Option β
  | [], _ => none
  | (k, v) :: rest, key => if k = key then some v else alGet rest key

/-- Association-list update (JS `Map.prototype.set`): replaces the value of an
existing key in place (keeping its position), otherwise appends. -/
def alSet {β : Type} : List (String × β) → String → β → List (String × β)
  | [], key, val => [(key, val)]
  | (k, v) :: rest, key, val =>
    if k = key then (k, val) :: rest else (k, v) :: alSet rest key val

/-- JS `Map.prototype.has`. -/
def alHas {β : Type} (m : List (String × β)) (k : String) : Bool :=
  (alGet m k).isSome

/-- The keys of a map, in insertion order (JS `Map.prototype.keys`). -/
def alKeys {β : Type} (m : List (String × β)) : List String :=
  m.map (·.1)

/-- The package graph: package name → list of direct dependency edges
(the `Map<string, { package: string; versionNumber?: string }[]>` of the
source). -/
abbrev Graph := List (String × List Dep)

/-- JS falsiness of an optional version string: `undefined` and `""` are
falsy. -/
def jsFalsy : Option String → Bool
  | none => true
  | some s => s = ""

/-! ## Version comparison (`compareVersions`, source lines 73-112)

The source calls two functions of the npm `semver` library;
they are not part of this repository, so we model their documented
behaviour:

* `semver.coerce(s)` finds the first match of the regular expression
  `(^|[^\d])(\d{1,16})(?:\.(\d{1,16}))?(?:\.(\d{1,16}))?(?:$|[^\d])`
  in `s` and returns the corresponding `major.minor.patch` version
  (missing groups are `0`), or `null` when `s` contains no match.
* `semver.compare` on two such coerced versions (which carry no
  prerelease tags) is lexicographic numeric comparison of the triples,
  returning `-1`, `0` or `1`.
* `parseInt(s)` (used for build numbers) skips leading whitespace, reads an
  optional sign, then either a `0x`/`0X`-prefixed hexadecimal or a decimal
  digit run, and returns `NaN` (here `none`) when no digit is found.
  (JS numbers lose integer precision beyond 2^53; the inputs we reason
  about stay far below that, so `Int` is faithful.)
-/

/-- Numeric value of a digit character. -/
def digitVal (c : Char) : Nat := c.toNat - '0'.toNat

/-- Value of a run of decimal digit characters. -/
def valOfDigits (l : List Char) : Nat :=
  l.foldl (fun a c => 10 * a + digitVal c) 0

/-- Value of a run of hexadecimal digit characters. -/
def valOfHexDigits (l : List Char) : Nat :=
  l.foldl (fun a c =>
    16 * a + (if c.isDigit then digitVal c else c.toLower.toNat - 'a'.toNat + 10)) 0

/-- One optional `.(\d{1,16})` group of the coerce regex: consumes a dot
followed by a nonempty digit run of length ≤ 16. -/
def grabSeg : List Char → Option (Nat × List Char)
  | '.' :: r =>
    let run := r.takeWhile (·.isDigit)
    let rest := r.dropWhile (·.isDigit)
    if run ≠ [] ∧ run.length ≤ 16 then some (valOfDigits run, rest) else none
  | _ => none

/-- Attempt to match the numeric part of the coerce regex at the start of
`l` (which must start with a digit): the leading digit run gives the major
version, up to two `.(digits)` groups give minor and patch.  Fails when the
leading run is longer than 16 digits (the regex cannot match anywhere inside
a longer run). -/
def coerceAt (l : List Char) : Option (Nat × Nat × Nat) :=
  let run := l.takeWhile (·.isDigit)
  let rest := l.dropWhile (·.isDigit)
  if run.length ≤ 16 then
    some (match grabSeg rest with
      | some (b, rest2) =>
        match grabSeg rest2 with
        | some (c, _) => (valOfDigits run, b, c)
        | none => (valOfDigits run, b, 0)
      | none => (valOfDigits run, 0, 0))
  else none

/-- Scan for the first position where the coerce regex matches: a digit that
is not preceded by a digit.  `prevDigit` records whether the previous
character was a digit. -/
def coerceSearch : List Char → Bool → Option (Nat × Nat × Nat)
  | [], _ => none
  | c :: rest, prevDigit =>
    if c.isDigit && !prevDigit then
      match coerceAt (c :: rest) with
      | some t => some t
      | none => coerceSearch rest true
    else coerceSearch rest c.isDigit

/-- `semver.coerce` on a string, as a numeric triple (`none` = `null`). -/
def semverCoerce (l : List Char) : Option (Nat × Nat × Nat) :=
  coerceSearch l false

/-- `semver.compare` on two coerced versions: lexicographic numeric
comparison returning -1/0/1. -/
def compareTriple : Nat × Nat × Nat → Nat × Nat × Nat → Int
  | (a1, b1, c1), (a2, b2, c2) =>
    if a1 < a2 then -1 else if a2 < a1 then 1
    else if b1 < b2 then -1 else if b2 < b1 then 1
    else if c1 < c2 then -1 else if c2 < c1 then 1 else 0

/-- JS `parseInt` (default radix), returning `none` for `NaN`: skip leading
whitespace, read an optional sign, then a `0x`/`0X`-prefixed hexadecimal or
a decimal digit run; no digit at all gives `NaN`. -/
def jsParseInt (l : List Char) : Option Int :=
  let l1 := l.dropWhile (fun c => c = ' ' ∨ c = '\t' ∨ c = '\n' ∨ c = '\r')
  let sign : Int := if l1.headD ' ' = '-' then -1 else 1
  let l2 := if l1.headD ' ' = '-' ∨ l1.headD ' ' = '+' then l1.tail else l1
  if l2.headD ' ' = '0' ∧ (l2.tail.headD ' ' = 'x' ∨ l2.tail.headD ' ' = 'X') then
    let run := l2.tail.tail.takeWhile
      (fun c => c.isDigit ∨ ('a' ≤ c.toLower ∧ c.toLower ≤ 'f'))
    if run = [] then none else some (sign * valOfHexDigits run)
  else
    let run := l2.takeWhile (·.isDigit)
    if run = [] then none else some (sign * (valOfDigits run : Int))

/-- JS `String.prototype.split('.')`. -/
def splitOnDot : List Char → List (List Char)
  | [] => [[]]
  | c :: rest =>
    if c = '.' then [] :: splitOnDot rest
    else
      match splitOnDot rest with
      | s :: ss => (c :: s) :: ss
      | [] => [[c]]

/-- JS `Array.prototype.join('.')`. -/
def joinDots : List (List Char) → List Char
  | [] => []
  | [s] => s
  | s :: rest => s ++ '.' :: joinDots rest

/-- `version.endsWith('.LATEST')`. -/
def hasLatest (s : List Char) : Bool :=
  List.isSuffixOf ['.', 'L', 'A', 'T', 'E', 'S', 'T'] s

/-- `version.endsWith('.NEXT')`. -/
def hasNext (s : List Char) : Bool :=
  List.isSuffixOf ['.', 'N', 'E', 'X', 'T'] s

/-- `version.replace(/\.(LATEST|NEXT)$/, '')`. -/
def stripMarker (s : List Char) : List Char :=
  if hasLatest s then s.take (s.length - 7)
  else if hasNext s then s.take (s.length - 5)
  else s

/-- `v1Parts[3] || '0'` (missing or empty fourth segment becomes `'0'`). -/
def jsOrZero : Option (List Char) → List Char
  | none => ['0']
  | some [] => ['0']
  | some l => l

/-- `compareVersions` (source lines 73-112).  Result `none` models `NaN`. -/
def compareVersions (version1 version2 : Option String) : Option Int :=
  if jsFalsy version1 && jsFalsy version2 then some 0
  else if jsFalsy version1 then some (-1)
  else if jsFalsy version2 then some 1
  else
    let s1 := (version1.getD "").toList
    let s2 := (version2.getD "").toList
    let v1HasLatest := hasLatest s1
    let v2HasLatest := hasLatest s2
    let v1HasNext := hasNext s1
    let v2HasNext := hasNext s2
    if (v1HasLatest || v1HasNext) && !v2HasLatest && !v2HasNext then some 1
    else if (v2HasLatest || v2HasNext) && !v1HasLatest && !v1HasNext then some (-1)
    else
      let v1Parts := splitOnDot (stripMarker s1)
      let v2Parts := splitOnDot (stripMarker s2)
      let v1Semver := joinDots (v1Parts.take 3)
      let v2Semver := joinDots (v2Parts.take 3)
      let semverCompare :=
        compareTriple ((semverCoerce v1Semver).getD (0, 0, 0))
          ((semverCoerce v2Semver).getD (0, 0, 0))
      if semverCompare ≠ 0 then some semverCompare
      else
        match jsParseInt (jsOrZero (v1Parts.get? 3)),
              jsParseInt (jsOrZero (v2Parts.get? 3)) with
        | some b1, some b2 => some (b1 - b2)
        | _, _ => none

/-- `compareVersions(a, b) > 0` as used at every call site
(`NaN > 0` is `false` in JS). -/
def cmpGt (a b : Option String) : Bool :=
  match compareVersions a b with
  | some n => 0 < n
  | none => false

/-! ## Transitive closure engine (`fillDepsTransitively`, source lines 187-267)

`versionContributors` is the shared
`Map<string, Map<string, Set<string>>>` (package → version key → contributor
set); the version key is `dep.versionNumber || ''`.

The recursive `resolveDependencies` terminates in the source because the
ancestor chain grows along map keys; in the embedding we add a fuel
parameter that is structurally decremented at every recursion level, and the
driver passes `bigFuel` (one more than the number of keys), which is proved
sufficient below (`resolveDependencies_fuel`). -/

/-- Contributor store: package name → version key → contributor set. -/
abbrev VC := List (String × List (String × List String))

/-- JS `Set.prototype.add`: append if not present. -/
def setAdd (s : List String) (x : String) : List String :=
  if s.contains x then s else s ++ [x]

/-- Record `contrib` as a contributor of version `ver` of package `p`
(source lines 222-230 and 243-251). -/
def vcAdd (vc : VC) (p ver contrib : String) : VC :=
  let pv := (alGet vc p).getD []
  let s := (alGet pv ver).getD []
  alSet vc p (alSet pv ver (setAdd s contrib))

/-- Lookup of the accumulator map `allDependencies` (keyed by `package`). -/
def accGet : List Dep → String → Option Dep
  | [], _ => none
  | d :: rest, name => if d.package = name then some d else accGet rest name

/-- `allDependencies.set(dep.package, dep)`: replace in place or append. -/
def accSet : List Dep → Dep → List Dep
  | [], dep => [dep]
  | d :: rest, dep =>
    if d.package = dep.package then dep :: rest else d :: accSet rest dep

/-- One step of the accumulation shared by the direct-dependency loop
(lines 217-232, with `contrib` the package being expanded) and the
transitive merge loop (lines 238-253, with `contrib` the intermediate
package): keep the entry with the higher version, and record the
contributor exactly when the entry is added or replaced. -/
def addDep (contrib : String) (st : List Dep × VC) (dep : Dep) : List Dep × VC :=
  match accGet st.1 dep.package with
  | none =>
    (accSet st.1 dep, vcAdd st.2 dep.package (dep.versionNumber.getD "") contrib)
  | some existing =>
    if cmpGt dep.versionNumber existing.versionNumber then
      (accSet st.1 dep, vcAdd st.2 dep.package (dep.versionNumber.getD "") contrib)
    else st

/-- Message of the circular-dependency error (source lines 201-202). -/
def cycleMsg (chain : List String) (pkg : String) : String :=
  "Circular dependency detected: " ++ String.intercalate " -> " chain ++ " -> " ++
    pkg ++ ". Salesforce does not support circular dependencies between packages."

/-- Error used when the artificial fuel runs out (unreachable for the fuel
the driver passes, see `resolveDependencies_fuel`). -/
def fuelMsg : String := "recursion fuel exhausted"

/-- The transitive loop of `resolveDependencies` (source lines 235-255):
for each direct dependency that is itself a key of the map, recursively
expand it (`recur` is the recursive call at the next fuel level) and merge
the result into the accumulator. -/
def resolveTransLoop (m : Graph)
    (recur : String → List String → VC → Except String (List Dep × VC)) :
    List Dep → List String → List Dep → VC → Except String (List Dep × VC)
  | [], _, acc, vc => .ok (acc, vc)
  | dep :: rest, chain', acc, vc =>
    if alHas m dep.package then
      match recur dep.package chain' vc with
      | .ok (tds, vc') =>
        let st := tds.foldl (addDep dep.package) (acc, vc')
        resolveTransLoop m recur rest chain' st.1 st.2
      | .error e => .error e
    else resolveTransLoop m recur rest chain' acc vc

/-- The inner recursive function `resolveDependencies` of
`fillDepsTransitively` (source lines 193-259): expands one package against
the current dependency map `m`, with `chain` the ancestor chain (a JS `Set`
in insertion order, passed by copy to recursive calls).  Recursion is
structural on the fuel so that the definition reduces by computation. -/
def resolveDependencies (m : Graph) :
    Nat → String → List String → VC → Except String (List Dep × VC)
  | 0 => fun _ _ _ => .error fuelMsg
  | fuel + 1 => fun pkg chain vc =>
    if chain.contains pkg then .error (cycleMsg chain pkg)
    else
      let chain' := chain ++ [pkg]
      let dependencies := (alGet m pkg).getD []
      let st := dependencies.foldl (addDep pkg) ([], vc)
      resolveTransLoop m (resolveDependencies m fuel) dependencies chain' st.1 st.2

/-- Fuel passed to `resolveDependencies`: strictly more than the number of
keys of the map, hence more than any achievable chain length. -/
def bigFuel (m : Graph) : Nat := (alKeys m).length + 1

/-- The driver loop of `fillDepsTransitively` (source lines 261-264): for
each key of the map, expand it and write the result back into the *same*
map (`dependencyMap.set(pkg, resolvedDeps)`), so later iterations read
already-expanded entries. -/
def fillLoop : Graph × VC → List String → Except String (Graph × VC)
  | st, [] => .ok st
  | (m, vc), pkg :: rest =>
    match resolveDependencies m (bigFuel m) pkg [] vc with
    | .ok (resolvedDeps, vc') => fillLoop (alSet m pkg resolvedDeps, vc') rest
    | .error e => .error e

/-- `fillDepsTransitively` (source lines 187-267). -/
def fillDepsTransitively (g : Graph) (vc : VC) : Except String (Graph × VC) :=
  fillLoop (g, vc) (alKeys g)

/-! ## Topological sorter (`topologicalSort`, source lines 279-299)

Depth-first post-order sort over the (expanded) map; `visit` marks a package
visited before recursing into its dependency targets and appends it to the
result afterwards.  Termination is again by fuel, with `topoFuel` proved
sufficient below. -/

/-- Every name occurring in the map: keys and dependency targets. -/
def allNames (g : Graph) : List String :=
  (alKeys g ++ g.foldl (fun (acc : List String) e => acc ++ e.2.map (·.package)) []).dedup

/-- Fuel for `topoVisit`: more than the number of distinct names. -/
def topoFuel (g : Graph) : Nat := (allNames g).length + 2

/-- `dependencies.forEach(dep => visit(dep.package))` (source line 289);
`recur` is `visit` at the next fuel level. -/
def topoVisitList
    (recur : List String × List String → String → Option (List String × List String)) :
    List String × List String → List Dep → Option (List String × List String)
  | st, [] => some st
  | st, dep :: rest =>
    match recur st dep.package with
    | some st' => topoVisitList recur st' rest
    | none => none

/-- `visit` of `topologicalSort` (source lines 285-292); the state is
`(visited, result)`. -/
def topoVisit (g : Graph) :
    Nat → List String × List String → String → Option (List String × List String)
  | 0 => fun _ _ => none
  | fuel + 1 => fun st pkg =>
    if st.1.contains pkg then some st
    else
      match topoVisitList (topoVisit g fuel) (st.1 ++ [pkg], st.2) ((alGet g pkg).getD []) with
      | some st2 => some (st2.1, st2.2 ++ [pkg])
      | none => none

/-- The outer loop of `topologicalSort` (source lines 294-296). -/
def topoFold (g : Graph) :
    List String × List String → List String → Option (List String × List String)
  | st, [] => some st
  | st, k :: rest =>
    match topoVisit g (topoFuel g) st k with
    | some st' => topoFold g st' rest
    | none => none

/-- `topologicalSort` (source lines 279-299). -/
def topologicalSort (g : Graph) : List String :=
  match topoFold g ([], []) (alKeys g) with
  | some st => st.2
  | none => []

/-! ## Result assembly (source lines 43-57) and details (lines 126-185) -/

/-- `sortedPackages.indexOf(p)`: position in the global order, `-1` when
absent. -/
def idxInt (sorted : List String) (p : String) : Int :=
  if sorted.contains p then (sorted.indexOf p : Int) else -1

/-- The comparison underlying
`.sort((a, b) => sortedPackages.indexOf(a.package) - sortedPackages.indexOf(b.package))`. -/
def depLE (sorted : List String) (a b : Dep) : Prop :=
  idxInt sorted a.package ≤ idxInt sorted b.package

instance depLE.decRel (sorted : List String) : DecidableRel (depLE sorted) :=
  fun _ _ => Int.decLe _ _

/-- JS `Array.prototype.sort` with the index comparator.  The ECMAScript
sort is stable, and any stable sort by the same total preorder produces the
same list, so insertion sort is an exact model. -/
def sortDeps (sorted : List String) (l : List Dep) : List Dep :=
  List.insertionSort (depLE sorted) l

/-- The `uniqueDependencies` deduplication (source lines 47-53): one entry
per target name, keeping the higher version (ties keep the first). -/
def dedupDeps (dependencies : List Dep) : List Dep :=
  dependencies.foldl (fun u dep =>
    match accGet u dep.package with
    | none => accSet u dep
    | some existing =>
      if cmpGt dep.versionNumber existing.versionNumber then accSet u dep else u) []

/-- The `sortedPackages.forEach` loop building `sortedPkgWithDependencies`
(source lines 45-57). -/
def dedupAndSortAll (sorted : List String) (expanded : Graph) : Graph :=
  sorted.foldl (fun out pkg =>
    alSet out pkg (sortDeps sorted (dedupDeps ((alGet expanded pkg).getD [])))) []

/-- `DependencyDetail` (source lines 8-12). -/
structure DependencyDetail where
  version : String
  isDirect : Bool
  contributors : List String
deriving DecidableEq, Repr

/-- `dep.versionNumber || 'unknown'`. -/
def verOrUnknown (v : Option String) : String :=
  if jsFalsy v then "unknown" else v.getD ""

/-- `versionContributors.get(p)?.get(ver) || new Set()`, then `Array.from`
(source lines 157-158). -/
def vcLookup (vc : VC) (p ver : String) : List String :=
  match alGet vc p with
  | none => []
  | some pv => (alGet pv ver).getD []

/-- The per-package detail object built by the `dependencies.forEach` of
`generateDependencyDetails` (source lines 152-178). -/
def genDetailsFor (originalDeps : Graph) (vc : VC) (pkg : String)
    (dependencies : List Dep) : List (String × DependencyDetail) :=
  dependencies.foldl (fun pd dep =>
    let isDirect := ((alGet originalDeps pkg).getD []).any
      (fun d => d.package = dep.package ∧ d.versionNumber = dep.versionNumber)
    alSet pd dep.package
      ⟨verOrUnknown dep.versionNumber, isDirect,
       vcLookup vc dep.package (dep.versionNumber.getD "")⟩) []

/-- `generateDependencyDetails` (source lines 126-185); packages with an
empty resolved list get no entry. -/
def generateDependencyDetails (sortedPackages : List String)
    (resolvedDeps originalDeps : Graph) (vc : VC) :
    List (String × List (String × DependencyDetail)) :=
  sortedPackages.foldl (fun details pkg =>
    let dependencies := (alGet resolvedDeps pkg).getD []
    if dependencies.length > 0 then
      alSet details pkg (genDetailsFor originalDeps vc pkg dependencies)
    else details) []

/-- `DependencyResolutionDetails` (source lines 14-17). -/
structure DependencyResolutionDetails where
  resolvedDependencies : Graph
  details : List (String × List (String × DependencyDetail))
deriving DecidableEq, Repr

/-- `fillDepsWithUserDefinedExternalDependencyMap` (source lines 114-124):
each key of the external map replaces the whole entry of the graph. -/
def fillDepsWithUserDefinedExternalDependencyMap (g : Graph) (ext : Option Graph) :
    Graph :=
  match ext with
  | none => g
  | some em => (alKeys em).foldl (fun acc p => alSet acc p ((alGet em p).getD [])) g

/-- `resolveTransitiveDependenciesWithDetails` (source lines 27-71).
The manifest parsing that precedes the algorithm in the source
(`cloneDeep`, `UserDefinedExternalDependencyMap.cleanupEntries`,
`ProjectConfig.getAllPackagesAndItsDependencies`) lives outside this
repository's resolver; the embedding therefore takes the already-extracted
package graph plus the optional external-dependency overlay, exactly the
data those helpers produce. -/
def resolveTransitiveDependenciesWithDetails (g : Graph) (ext : Option Graph) :
    Except String DependencyResolutionDetails :=
  let pkgWithDependencies := fillDepsWithUserDefinedExternalDependencyMap g ext
  let originalDeps := pkgWithDependencies
  match fillDepsTransitively pkgWithDependencies [] with
  | .error e => .error e
  | .ok (expanded, versionContributors) =>
    let sortedPackages := topologicalSort expanded
    let sortedPkgWithDependencies := dedupAndSortAll sortedPackages expanded
    .ok ⟨sortedPkgWithDependencies,
         generateDependencyDetails sortedPackages sortedPkgWithDependencies
           originalDeps versionContributors⟩

/-- `resolveTransitiveDependencies` (source lines 22-25). -/
def resolveTransitiveDependencies (g : Graph) (ext : Option Graph) :
    Except String Graph :=
  (resolveTransitiveDependenciesWithDetails g ext).map (·.resolvedDependencies)

/-! ## Graph-theoretic notions used to state the universal claims -/

/-- `x` has a direct dependency edge to `y` in `g`. -/
def edgeB (g : Graph) (x y : String) : Bool :=
  ((alGet g x).getD []).any (fun d => d.package == y)

/-- Consecutive elements of the list are joined by dependency edges. -/
def consecB (g : Graph) : List String → Bool
  | [] => true
  | [_] => true
  | x :: y :: rest => edgeB g x y && consecB g (y :: rest)

/-- `c` is a dependency cycle of `g`: a nonempty duplicate-free list of
keys of `g` in which each element depends on the next and the last depends
on the first. -/
def isCycleChainB (g : Graph) (c : List String) : Bool :=
  !c.isEmpty && c.Nodup && c.all (fun x => alHas g x) &&
    consecB g (c ++ [c.headD ""])

/-- Nonempty dependency paths of `g`. -/
inductive PathPlus (g : Graph) : String → String → Prop
  | single {x y : String} : edgeB g x y = true → PathPlus g x y
  | cons {x y z : String} : edgeB g x y = true → PathPlus g y z → PathPlus g x z

/-- Acyclicity certificate: a rank function that strictly decreases along
every dependency edge.  A finite graph admits such a function exactly when
it is acyclic, and the certificate form keeps the hypothesis decidable for
concrete graphs. -/
def RankedDag (g : Graph) (rank : String → Nat) : Prop :=
  ∀ p ∈ alKeys g, ∀ d ∈ (alGet g p).getD [], rank d.package < rank p

/-- Position of the first occurrence of a name in a list (proof-side index
used to state ordering properties). -/
def posIn : List String → String → Nat
  | [], _ => 0
  | a :: rest, x => if a = x then 0 else posIn rest x + 1

/-- The ordering invariant of a depth-first post-order result: every listed
package appears after each of its direct dependency targets. -/
def StrongOrder (g : Graph) (result : List String) : Prop :=
  ∀ q ∈ result, ∀ t, edgeB g q t = true →
    t ∈ result ∧ posIn result t < posIn result q

/-- Proof-side measure: how many names of the graph are not yet visited. -/
def notVisited (g : Graph) (visited : List String) : Nat :=
  ((allNames g).filter (fun x => decide (x ∉ visited))).length

/-- Proof-side measure: how many keys of the map are not on the chain. -/
def notInChain (m : Graph) (chain : List String) : Nat :=
  ((alKeys m).filter (fun x => decide (x ∉ chain))).length

/-! ## Well-formed version strings and the specification comparator (C6) -/

/-- A well-formed dot-separated segment: a nonempty run of at most 16
decimal digits. -/
def isDigitSeg (l : List Char) : Bool :=
  !l.isEmpty && l.all (·.isDigit) && l.length ≤ 16

/-- Parse a well-formed version string: an optional `.LATEST`/`.NEXT`
marker on top of one to four dot-separated numeric segments.  Returns the
numeric segment values and whether a floating marker is present, or `none`
for strings outside the well-formed fragment the claim's rules describe. -/
def wfParse (s : String) : Option (List Nat × Bool) :=
  let l := s.toList
  let marker := hasLatest l || hasNext l
  let parts := splitOnDot (stripMarker l)
  if parts.all isDigitSeg ∧ parts.length ≤ 4 then
    some (parts.map valOfDigits, marker)
  else none

/-- The first three segment values, missing segments as zero
(spec §4.1 rule 3). -/
def specTriple (ns : List Nat) : Nat × Nat × Nat :=
  ((ns.get? 0).getD 0, (ns.get? 1).getD 0, (ns.get? 2).getD 0)

/-- The optional fourth "build number" segment, absent as zero
(spec §4.1 rule 4). -/
def specBuild (ns : List Nat) : Nat := (ns.get? 3).getD 0

/-- The numeric comparison described by the *specification* (§4.1 rules 3
and 4, the wording of claim C6): compare the first three segments
numerically as a semantic version, and on a tie compare the build numbers.
This definition follows the spec's words and is compared against the
source-derived `compareVersions`. -/
def specNumericCompare (ns1 ns2 : List Nat) : Int :=
  let t := compareTriple (specTriple ns1) (specTriple ns2)
  if t ≠ 0 then t
  else if specBuild ns1 < specBuild ns2 then -1
  else if specBuild ns2 < specBuild ns1 then 1
  else 0

/-! ## Example graphs used by the concrete theorems -/

/-- The three-package arbitration example of claim C4 (also the shape of the
"higher version" test of the repository): `package-c` depends on
`package-b@2.0.0.LATEST` and `package-a@1.1.0.LATEST`; `package-b` depends
on `package-a@1.0.0.LATEST`. -/
def exC4 : Graph :=
  [("package-a", []),
   ("package-b", [⟨"package-a", some "1.0.0.LATEST"⟩]),
   ("package-c", [⟨"package-b", some "2.0.0.LATEST"⟩, ⟨"package-a", some "1.1.0.LATEST"⟩])]

/-- C4's expected resolved list for `package-c`. -/
def exC4res : List Dep :=
  [⟨"package-a", some "1.1.0.LATEST"⟩, ⟨"package-b", some "2.0.0.LATEST"⟩]

/-- The shared-dependency example of claim C9: `package-a` and `package-b`
both depend on `shared-dep@1.0.0.LATEST`, `root-package` depends on both. -/
def exC9 : Graph :=
  [("shared-dep", []),
   ("package-a", [⟨"shared-dep", some "1.0.0.LATEST"⟩]),
   ("package-b", [⟨"shared-dep", some "1.0.0.LATEST"⟩]),
   ("root-package", [⟨"package-a", some "1.0.0.LATEST"⟩, ⟨"package-b", some "1.0.0.LATEST"⟩])]

/-- C2: a three-package graph; `package-c` depends on the two independent
packages `package-a` and `package-b`. -/
def exC2a : Graph :=
  [("package-a", []), ("package-b", []),
   ("package-c", [⟨"package-a", none⟩, ⟨"package-b", none⟩])]

/-- C2: the same packages with the same direct dependencies, with the list
order of the two independent packages swapped. -/
def exC2b : Graph :=
  [("package-b", []), ("package-a", []),
   ("package-c", [⟨"package-a", none⟩, ⟨"package-b", none⟩])]

/-- C3: a chain `a → b → c → d`; the driver loop processes `b` first, so its
entry is rewritten to its closure before `a` is expanded. -/
def exC3 : Graph :=
  [("b", [⟨"c", none⟩]), ("c", [⟨"d", none⟩]), ("d", []), ("a", [⟨"b", none⟩])]

/-- C8: a single input package whose dependency target `x` is not an input
package. -/
def exC8 : Graph := [("a", [⟨"x", some "1.0.0"⟩])]

/-- C1: the two-package cycle of the repository's circular-dependency
test. -/
def exC1 : Graph :=
  [("package-a", [⟨"package-b", some "1.0.0.LATEST"⟩]),
   ("package-b", [⟨"package-a", some "1.0.0.LATEST"⟩])]

/-- C10: `p` declares `d@1.0.0` directly but also depends on `q`, which
pulls in `d@2.0.0`; arbitration resolves `d` to `2.0.0`. -/
def exC10 : Graph :=
  [("d", []), ("q", [⟨"d", some "2.0.0"⟩]), ("p", [⟨"d", some "1.0.0"⟩, ⟨"q", none⟩])]

/-- C7: a graph containing a thoroughly malformed version string; resolution
still succeeds. -/
def exC7 : Graph := [("a", []), ("b", [⟨"a", some "bad.version.x"⟩])]

/-- The literal result of resolving `exC8`. -/
def exC8res : DependencyResolutionDetails :=
  ⟨[("x", []), ("a", [⟨"x", some "1.0.0"⟩])],
   [("a", [("x", ⟨"1.0.0", true, ["a"]⟩)])]⟩

/-- The literal result of resolving `exC10`. -/
def exC10res : DependencyResolutionDetails :=
  ⟨[("d", []), ("q", [⟨"d", some "2.0.0"⟩]), ("p", [⟨"d", some "2.0.0"⟩, ⟨"q", none⟩])],
   [("q", [("d", ⟨"2.0.0", true, ["q"]⟩)]),
    ("p", [("d", ⟨"2.0.0", false, ["q"]⟩), ("q", ⟨"unknown", true, ["p"]⟩)])]⟩

/-- What one (successful) `visit` call always does to the state: visited and
result grow by appending, every newly pushed name was unvisited before, the
argument ends up visited, and the stack (visited names not yet in the
result) does not grow. -/
def VisitPost (st st2 : List String × List String) (pkg : String) : Prop :=
  (∃ dv, st2.1 = st.1 ++ dv) ∧
  (∃ dr, st2.2 = st.2 ++ dr ∧ ∀ x ∈ dr, x ∉ st.1) ∧
  pkg ∈ st2.1 ∧
  (∀ x, x ∈ st2.1 → x ∉ st2.2 → x ∈ st.1 ∧ x ∉ st.2)

/-- The corresponding post-condition of the `forEach` loop over a
dependency list. -/
def ListPost (st st2 : List String × List String) (deps : List Dep) : Prop :=
  (∃ dv, st2.1 = st.1 ++ dv) ∧
  (∃ dr, st2.2 = st.2 ++ dr ∧ ∀ x ∈ dr, x ∉ st.1) ∧
  (∀ d ∈ deps, d.package ∈ st2.1) ∧
  (∀ x, x ∈ st2.1 → x ∉ st2.2 → x ∈ st.1 ∧ x ∉ st.2)

/-! ## Basic lemmas about the association-list operations -/

theorem alGet_alSet_self {β : Type} (m : List (String × β)) (k : String) (v : β) :
    alGet (alSet m k v) k = some v := by
  induction m with
  | nil => simp [alSet, alGet]
  | cons e rest ih =>
    obtain ⟨k1, v1⟩ := e
    by_cases h : k1 = k <;> simp [alSet, alGet, h, ih]

theorem alGet_alSet_ne {β : Type} (m : List (String × β)) (k k' : String) (v : β)
    (h : k ≠ k') : alGet (alSet m k v) k' = alGet m k' := by
  induction m with
  | nil => simp [alSet, alGet, h]
  | cons e rest ih =>
    obtain ⟨k1, v1⟩ := e
    by_cases h1 : k1 = k
    · subst h1; simp [alSet, alGet, h]
    · simp only [alSet, if_neg h1]
      by_cases h2 : k1 = k' <;> simp [alGet, h2, ih]

theorem alKeys_alSet_of_mem {β : Type} (m : List (String × β)) (k : String) (v : β)
    (h : k ∈ alKeys m) : alKeys (alSet m k v) = alKeys m := by
  induction m with
  | nil => simp [alKeys] at h
  | cons e rest ih =>
    obtain ⟨k1, v1⟩ := e
    by_cases h1 : k1 = k
    · simp [alSet, alKeys, h1]
    · simp only [alKeys, List.map_cons] at h ⊢
      rcases List.mem_cons.mp h with h2 | h2
      · exact absurd h2.symm h1
      · have h3 := ih h2
        simp only [alSet, if_neg h1, alKeys, List.map_cons] at h3 ⊢
        rw [h3]

theorem alGet_isSome_iff {β : Type} (m : List (String × β)) (k : String) :
    (alGet m k).isSome = true ↔ k ∈ alKeys m := by
  induction m with
  | nil => simp [alGet, alKeys]
  | cons e rest ih =>
    obtain ⟨k1, v1⟩ := e
    by_cases h : k1 = k
    · simp [alGet, alKeys, h]
    · have h2 : ¬ k = k1 := fun he => h he.symm
      simp [alGet, alKeys, h, h2, ih]

theorem alHas_iff {β : Type} (m : List (String × β)) (k : String) :
    alHas m k = true ↔ k ∈ alKeys m := by
  simp [alHas, alGet_isSome_iff]

theorem alGet_foldl_setf {β : Type} (ks : List String) (f : String → β)
    (init : List (String × β)) (k : String) :
    alGet (ks.foldl (fun out pkg => alSet out pkg (f pkg)) init) k =
      if k ∈ ks then some (f k) else alGet init k := by
  induction ks generalizing init with
  | nil => simp
  | cons a rest ih =>
    simp only [List.foldl_cons, ih]
    by_cases hk : k ∈ rest
    · simp [hk]
    · by_cases hak : k = a
      · subst hak; simp [hk, alGet_alSet_self]
      · simp [hk, hak, alGet_alSet_ne _ _ _ _ (Ne.symm hak)]

theorem alGet_foldl_setf_if {β : Type} (ks : List String) (p : String → Bool)
    (f : String → β) (init : List (String × β)) (k : String) :
    alGet (ks.foldl (fun out pkg => if p pkg then alSet out pkg (f pkg) else out) init) k =
      if k ∈ ks ∧ p k = true then some (f k) else alGet init k := by
  induction ks generalizing init with
  | nil => simp
  | cons a rest ih =>
    simp only [List.foldl_cons, ih]
    by_cases hk : k ∈ rest ∧ p k = true
    · simp [hk, hk.1, hk.2]
    · by_cases hak : k = a
      · subst hak
        by_cases hp : p k = true
        · have hkr : k ∉ rest := fun hr => hk ⟨hr, hp⟩
          simp [hp, hk, alGet_alSet_self]
        · simp [hp, hk]
      · have : (k ∈ a :: rest ∧ p k = true) ↔ (k ∈ rest ∧ p k = true) := by
          simp [List.mem_cons, hak]
        rw [if_neg (this.not.mpr hk), if_neg hk]
        by_cases hp : p a = true
        · simp [hp, alGet_alSet_ne _ _ _ _ (Ne.symm hak)]
        · simp [hp]

theorem alGet_foldl_deps_notmem {β : Type} (deps : List Dep) (fdet : Dep → β)
    (init : List (String × β)) (name : String)
    (h : ∀ d ∈ deps, d.package ≠ name) :
    alGet (deps.foldl (fun pd d => alSet pd d.package (fdet d)) init) name =
      alGet init name := by
  induction deps generalizing init with
  | nil => simp
  | cons d rest ih =>
    simp only [List.foldl_cons]
    rw [ih _ (fun d hd => h d (List.mem_cons_of_mem _ hd)),
      alGet_alSet_ne _ _ _ _ (h d (List.mem_cons_self _ _))]

theorem alGet_foldl_deps {β : Type} (deps : List Dep) (fdet : Dep → β)
    (init : List (String × β)) (dep : Dep) (hmem : dep ∈ deps)
    (hnd : (deps.map (·.package)).Nodup) :
    alGet (deps.foldl (fun pd d => alSet pd d.package (fdet d)) init) dep.package =
      some (fdet dep) := by
  induction deps generalizing init with
  | nil => simp at hmem
  | cons d rest ih =>
    simp only [List.map_cons, List.nodup_cons] at hnd
    rcases List.mem_cons.mp hmem with h | h
    · subst h
      simp only [List.foldl_cons]
      rw [alGet_foldl_deps_notmem]
      · exact alGet_alSet_self _ _ _
      · intro d' hd' heq
        have hm : d'.package ∈ rest.map (·.package) :=
          List.mem_map_of_mem (·.package) hd'
        rw [heq] at hm
        exact hnd.1 hm
    · simp only [List.foldl_cons]
      exact ih _ h hnd.2

/-! ## Lemmas about the accumulator map and deduplication -/

theorem accGet_eq_none_iff (l : List Dep) (name : String) :
    accGet l name = none ↔ ∀ d ∈ l, d.package ≠ name := by
  induction l with
  | nil => simp [accGet]
  | cons d rest ih =>
    by_cases h : d.package = name <;> simp [accGet, h, ih]

theorem accSet_map_package_of_some (l : List Dep) (dep : Dep)
    (h : (accGet l dep.package).isSome = true) :
    (accSet l dep).map (·.package) = l.map (·.package) := by
  induction l with
  | nil => simp [accGet] at h
  | cons d rest ih =>
    by_cases hd : d.package = dep.package
    · simp [accSet, hd]
    · simp only [accGet, if_neg hd] at h
      simp [accSet, hd, ih h]

theorem accSet_map_package_of_none (l : List Dep) (dep : Dep)
    (h : accGet l dep.package = none) :
    (accSet l dep).map (·.package) = l.map (·.package) ++ [dep.package] := by
  induction l with
  | nil => simp [accSet]
  | cons d rest ih =>
    by_cases hd : d.package = dep.package
    · simp [accGet, hd] at h
    · simp only [accGet, if_neg hd] at h
      simp [accSet, hd, ih h]

theorem dedupFold_nodup (deps : List Dep) (u : List Dep)
    (hu : (u.map (·.package)).Nodup) :
    ((deps.foldl (fun u dep =>
        match accGet u dep.package with
        | none => accSet u dep
        | some existing =>
          if cmpGt dep.versionNumber existing.versionNumber then accSet u dep else u) u).map
      (·.package)).Nodup := by
  induction deps generalizing u with
  | nil => exact hu
  | cons d rest ih =>
    simp only [List.foldl_cons]
    apply ih
    cases hacc : accGet u d.package with
    | none =>
      simp only [hacc]
      rw [accSet_map_package_of_none _ _ hacc]
      have hnm : d.package ∉ u.map (·.package) := by
        intro hmem
        rcases List.mem_map.mp hmem with ⟨d', hd', heq⟩
        exact (accGet_eq_none_iff u d.package).mp hacc d' hd' heq
      simp [List.nodup_append, hnm, hu]
    | some existing =>
      simp only [hacc]
      by_cases hgt : cmpGt d.versionNumber existing.versionNumber = true
      · rw [if_pos hgt, accSet_map_package_of_some]
        · exact hu
        · simp [hacc]
      · rw [if_neg hgt]
        exact hu

theorem dedupDeps_nodup (deps : List Dep) :
    ((dedupDeps deps).map (·.package)).Nodup :=
  dedupFold_nodup deps [] (by simp)

theorem sortDeps_perm (sorted : List String) (l : List Dep) :
    (sortDeps sorted l).Perm l :=
  List.perm_insertionSort _ l

theorem sortDeps_nodup_package (sorted : List String) (l : List Dep)
    (h : (l.map (·.package)).Nodup) :
    ((sortDeps sorted l).map (·.package)).Nodup :=
  (((sortDeps_perm sorted l).map (·.package)).nodup_iff).mpr h

/-! ## Decomposition of a successful resolution -/

theorem resolveTDWD_ok (g : Graph) (r : DependencyResolutionDetails)
    (h : resolveTransitiveDependenciesWithDetails g none = .ok r) :
    ∃ expanded vc, fillDepsTransitively g [] = .ok (expanded, vc) ∧
      r.resolvedDependencies = dedupAndSortAll (topologicalSort expanded) expanded ∧
      r.details = generateDependencyDetails (topologicalSort expanded)
        (dedupAndSortAll (topologicalSort expanded) expanded) g vc := by
  unfold resolveTransitiveDependenciesWithDetails at h
  simp only [fillDepsWithUserDefinedExternalDependencyMap] at h
  cases hfd : fillDepsTransitively g [] with
  | error e => rw [hfd] at h; exact absurd h (by simp)
  | ok st =>
    obtain ⟨expanded, vc⟩ := st
    rw [hfd] at h
    simp only [Except.ok.injEq] at h
    exact ⟨expanded, vc, rfl, by rw [← h], by rw [← h]⟩

theorem resolved_alGet_iff (sorted : List String) (expanded : Graph) (k : String)
    (l : List Dep) :
    alGet (dedupAndSortAll sorted expanded) k = some l ↔
      k ∈ sorted ∧ l = sortDeps sorted (dedupDeps ((alGet expanded k).getD [])) := by
  unfold dedupAndSortAll
  rw [alGet_foldl_setf sorted (fun pkg => sortDeps sorted (dedupDeps ((alGet expanded pkg).getD [])))]
  by_cases hk : k ∈ sorted <;> simp [hk, alGet, eq_comm]

theorem details_fold_alGet (sorted : List String) (resolved originalDeps : Graph)
    (vc : VC) (init : List (String × List (String × DependencyDetail))) (k : String) :
    alGet (sorted.foldl (fun details pkg =>
        let dependencies := (alGet resolved pkg).getD []
        if dependencies.length > 0 then
          alSet details pkg (genDetailsFor originalDeps vc pkg dependencies)
        else details) init) k =
      if k ∈ sorted ∧ ((alGet resolved k).getD []).length > 0 then
        some (genDetailsFor originalDeps vc k ((alGet resolved k).getD []))
      else alGet init k := by
  induction sorted generalizing init with
  | nil => simp
  | cons a rest ih =>
    rw [List.foldl_cons, ih]
    by_cases hk : k ∈ rest ∧ ((alGet resolved k).getD []).length > 0
    · rw [if_pos hk, if_pos ⟨List.mem_cons_of_mem _ hk.1, hk.2⟩]
    · rw [if_neg hk]
      show alGet (if ((alGet resolved a).getD []).length > 0 then
          alSet init a (genDetailsFor originalDeps vc a ((alGet resolved a).getD []))
        else init) k = _
      by_cases hak : k = a
      · subst hak
        by_cases hp : ((alGet resolved k).getD []).length > 0
        · rw [if_pos hp, alGet_alSet_self, if_pos ⟨List.mem_cons_self _ _, hp⟩]
        · rw [if_neg hp,
            if_neg (fun hc : k ∈ k :: rest ∧ ((alGet resolved k).getD []).length > 0 =>
              hp hc.2)]
      · have houter : ¬(k ∈ a :: rest ∧ ((alGet resolved k).getD []).length > 0) :=
          fun hc => hk ⟨(List.mem_cons.mp hc.1).resolve_left hak, hc.2⟩
        rw [if_neg houter]
        by_cases hp : ((alGet resolved a).getD []).length > 0
        · rw [if_pos hp, alGet_alSet_ne _ _ _ _ (Ne.symm hak)]
        · rw [if_neg hp]

theorem details_alGet (sorted : List String) (resolved originalDeps : Graph)
    (vc : VC) (k : String) :
    alGet (generateDependencyDetails sorted resolved originalDeps vc) k =
      if k ∈ sorted ∧ ((alGet resolved k).getD []).length > 0 then
        some (genDetailsFor originalDeps vc k ((alGet resolved k).getD []))
      else none :=
  details_fold_alGet sorted resolved originalDeps vc [] k

theorem details_alGet_isSome_iff (sorted : List String) (resolved originalDeps : Graph)
    (vc : VC) (k : String) :
    (alGet (generateDependencyDetails sorted resolved originalDeps vc) k).isSome = true ↔
      k ∈ sorted ∧ ((alGet resolved k).getD []).length > 0 := by
  rw [details_alGet]
  by_cases h : k ∈ sorted ∧ ((alGet resolved k).getD []).length > 0 <;> simp [h]

theorem details_alGet_eq (sorted : List String) (resolved originalDeps : Graph)
    (vc : VC) (k : String) (hk : k ∈ sorted)
    (hne : ((alGet resolved k).getD []).length > 0) :
    alGet (generateDependencyDetails sorted resolved originalDeps vc) k =
      some (genDetailsFor originalDeps vc k ((alGet resolved k).getD [])) := by
  rw [details_alGet, if_pos ⟨hk, hne⟩]

/-! ## Counting lemmas for the fuel arguments -/

theorem filter_length_le {α : Type} (l : List α) (p q : α → Bool)
    (h : ∀ x, q x = true → p x = true) :
    (l.filter q).length ≤ (l.filter p).length := by
  induction l with
  | nil => simp
  | cons x rest ih =>
    rw [List.filter_cons, List.filter_cons]
    by_cases hq : q x = true
    · rw [if_pos hq, if_pos (h x hq)]
      simpa using ih
    · rw [if_neg (by simp [hq])]
      by_cases hp : p x = true
      · rw [if_pos hp]
        exact Nat.le_trans ih (by simp)
      · rw [if_neg (by simp [hp])]
        exact ih

theorem filter_length_lt {α : Type} (l : List α) (p q : α → Bool)
    (h : ∀ x, q x = true → p x = true) (a : α) (ha : a ∈ l)
    (hpa : p a = true) (hqa : q a = false) :
    (l.filter q).length < (l.filter p).length := by
  induction l with
  | nil => simp at ha
  | cons x rest ih =>
    rw [List.filter_cons, List.filter_cons]
    rcases List.mem_cons.mp ha with hax | hax
    · subst hax
      rw [if_neg (by simp [hqa]), if_pos hpa]
      exact Nat.lt_succ_of_le (filter_length_le rest p q h)
    · by_cases hq : q x = true
      · rw [if_pos hq, if_pos (h x hq)]
        simpa using ih hax
      · rw [if_neg (by simp [hq])]
        by_cases hp : p x = true
        · rw [if_pos hp]
          exact Nat.lt_succ_of_lt (ih hax)
        · rw [if_neg (by simp [hp])]
          exact ih hax

theorem notVisited_append_le (g : Graph) (visited dv : List String) :
    notVisited g (visited ++ dv) ≤ notVisited g visited := by
  apply filter_length_le
  intro x hx
  simp only [decide_eq_true_eq] at hx ⊢
  exact fun hmem => hx (List.mem_append_left _ hmem)

theorem notVisited_append_lt (g : Graph) (visited : List String) (pkg : String)
    (hmem : pkg ∈ allNames g) (hnv : pkg ∉ visited) :
    notVisited g (visited ++ [pkg]) < notVisited g visited := by
  apply filter_length_lt _ _ _ _ pkg hmem
  · simpa using hnv
  · simp
  · intro x hx
    simp only [decide_eq_true_eq] at hx ⊢
    exact fun hmemv => hx (List.mem_append_left _ hmemv)

theorem notVisited_lt_topoFuel (g : Graph) (visited : List String) :
    notVisited g visited < topoFuel g :=
  Nat.lt_of_le_of_lt (List.length_filter_le _ _)
    (by unfold topoFuel; omega)

/-! ## Names of the graph -/

theorem mem_foldl_targets (g : Graph) (acc : List String) (x : String) :
    x ∈ g.foldl (fun (acc : List String) e => acc ++ e.2.map (·.package)) acc ↔
      x ∈ acc ∨ ∃ e ∈ g, x ∈ e.2.map (·.package) := by
  induction g generalizing acc with
  | nil => simp
  | cons e rest ih =>
    rw [List.foldl_cons, ih]
    simp [List.mem_append, or_assoc]

theorem keys_mem_allNames (g : Graph) (k : String) (h : k ∈ alKeys g) :
    k ∈ allNames g := by
  unfold allNames
  rw [List.mem_dedup]
  exact List.mem_append_left _ h

theorem alGet_eq_some_mem {β : Type} (m : List (String × β)) (k : String) (v : β)
    (h : alGet m k = some v) : (k, v) ∈ m := by
  induction m with
  | nil => simp [alGet] at h
  | cons e rest ih =>
    obtain ⟨k1, v1⟩ := e
    by_cases h1 : k1 = k
    · subst h1
      have h2 : v1 = v := by simpa [alGet] using h
      rw [← h2]
      exact List.mem_cons_self _ _
    · simp only [alGet, if_neg h1] at h
      exact List.mem_cons_of_mem _ (ih h)

theorem targets_mem_allNames (g : Graph) (pkg : String) (d : Dep)
    (hd : d ∈ (alGet g pkg).getD []) : d.package ∈ allNames g := by
  unfold allNames
  rw [List.mem_dedup]
  apply List.mem_append_right
  rw [mem_foldl_targets]
  right
  cases hget : alGet g pkg with
  | none => rw [hget] at hd; simp at hd
  | some deps =>
    rw [hget] at hd
    exact ⟨(pkg, deps), alGet_eq_some_mem _ _ _ hget,
      List.mem_map_of_mem (·.package) hd⟩

theorem list_contains_iff (l : List String) (x : String) :
    l.contains x = true ↔ x ∈ l := by
  simp [List.contains]

/-! ## Structural post-conditions of the depth-first visit -/

theorem topoVisitList_post
    (recur : List String × List String → String → Option (List String × List String))
    (H : ∀ st pkg st2, recur st pkg = some st2 → VisitPost st st2 pkg) :
    ∀ (deps : List Dep) (st st2 : List String × List String),
      topoVisitList recur st deps = some st2 → ListPost st st2 deps := by
  intro deps
  induction deps with
  | nil =>
    intro st st2 h
    simp only [topoVisitList, Option.some.injEq] at h
    subst h
    exact ⟨⟨[], by simp⟩, ⟨[], by simp⟩, by simp, fun x hx hnx => ⟨hx, hnx⟩⟩
  | cons d rest ih =>
    intro st st2 h
    simp only [topoVisitList] at h
    cases hrec : recur st d.package with
    | none => rw [hrec] at h; simp at h
    | some st1 =>
      rw [hrec] at h
      have hp1 := H st d.package st1 hrec
      have hp2 := ih st1 st2 h
      obtain ⟨⟨dv1, hdv1⟩, ⟨dr1, hdr1, hfr1⟩, hmem1, hstk1⟩ := hp1
      obtain ⟨⟨dv2, hdv2⟩, ⟨dr2, hdr2, hfr2⟩, hmem2, hstk2⟩ := hp2
      refine ⟨⟨dv1 ++ dv2, by rw [hdv2, hdv1, List.append_assoc]⟩,
        ⟨dr1 ++ dr2, by rw [hdr2, hdr1, List.append_assoc], ?_⟩, ?_, ?_⟩
      · intro x hx
        rcases List.mem_append.mp hx with hx | hx
        · exact hfr1 x hx
        · intro hmem
          exact hfr2 x hx (by rw [hdv1]; exact List.mem_append_left _ hmem)
      · intro d2 hd2
        rcases List.mem_cons.mp hd2 with hd2 | hd2
        · subst hd2
          rw [hdv2]
          exact List.mem_append_left _ hmem1
        · exact hmem2 d2 hd2
      · intro x hx hnx
        have h2 := hstk2 x hx hnx
        exact hstk1 x h2.1 h2.2

theorem topoVisit_post (g : Graph) :
    ∀ (fuel : Nat) (st : List String × List String) (pkg : String)
      (st2 : List String × List String),
      topoVisit g fuel st pkg = some st2 → VisitPost st st2 pkg := by
  intro fuel
  induction fuel with
  | zero => intro st pkg st2 h; simp [topoVisit] at h
  | succ fuel ih =>
    intro st pkg st2 h
    simp only [topoVisit] at h
    by_cases hc : st.1.contains pkg = true
    · rw [if_pos hc] at h
      simp only [Option.some.injEq] at h
      subst h
      exact ⟨⟨[], by simp⟩, ⟨[], by simp⟩, (list_contains_iff _ _).mp hc,
        fun x hx hnx => ⟨hx, hnx⟩⟩
    · rw [if_neg hc] at h
      cases hlist : topoVisitList (topoVisit g fuel) (st.1 ++ [pkg], st.2)
          ((alGet g pkg).getD []) with
      | none => rw [hlist] at h; simp at h
      | some st3 =>
        rw [hlist] at h
        simp only [Option.some.injEq] at h
        subst h
        have hpkg : pkg ∉ st.1 := fun hm => hc ((list_contains_iff _ _).mpr hm)
        obtain ⟨⟨dv, hdv⟩, ⟨dr, hdr, hfr⟩, _, hstk⟩ :=
          topoVisitList_post (topoVisit g fuel) (fun st pkg st2 => ih st pkg st2) _ _ _ hlist
        constructor
        · exact ⟨pkg :: dv, by rw [hdv]; simp⟩
        constructor
        · refine ⟨dr ++ [pkg], by rw [hdr]; simp, ?_⟩
          intro x hx
          rcases List.mem_append.mp hx with hx | hx
          · intro hmem
            exact hfr x hx (List.mem_append_left _ hmem)
          · rw [List.mem_singleton.mp hx]
            exact hpkg
        constructor
        · rw [hdv]
          exact List.mem_append_left _ (List.mem_append_right _ (by simp))
        · intro x hx hnx
          simp only [List.mem_append, List.mem_singleton] at hnx
          push_neg at hnx
          have h3 := hstk x hx hnx.1
          have hx1 : x ∈ st.1 := by
            rcases List.mem_append.mp h3.1 with hh | hh
            · exact hh
            · exact absurd (List.mem_singleton.mp hh) hnx.2
          exact ⟨hx1, h3.2⟩

/-! ## Fuel adequacy for the depth-first visit -/

theorem topoVisit_some (g : Graph) :
    ∀ (fuel : Nat) (st : List String × List String) (pkg : String),
      pkg ∈ allNames g → notVisited g st.1 < fuel →
      ∃ st2, topoVisit g fuel st pkg = some st2 := by
  intro fuel
  induction fuel with
  | zero => intro st pkg _ h; omega
  | succ fuel ih =>
    intro st pkg hmem hlt
    simp only [topoVisit]
    by_cases hc : st.1.contains pkg = true
    · rw [if_pos hc]; exact ⟨st, rfl⟩
    · rw [if_neg hc]
      have hpkg : pkg ∉ st.1 := fun hm => hc ((list_contains_iff _ _).mpr hm)
      have hlt1 : notVisited g (st.1 ++ [pkg]) < fuel :=
        Nat.lt_of_lt_of_le (notVisited_append_lt g st.1 pkg hmem hpkg)
          (Nat.lt_succ_iff.mp hlt)
      have hlist : ∀ (deps : List Dep) (st1 : List String × List String),
          (∀ d ∈ deps, d.package ∈ allNames g) → notVisited g st1.1 < fuel →
          ∃ st3, topoVisitList (topoVisit g fuel) st1 deps = some st3 := by
        intro deps
        induction deps with
        | nil => intro st1 _ _; exact ⟨st1, rfl⟩
        | cons d rest ihd =>
          intro st1 hd hlt2
          obtain ⟨st4, hst4⟩ := ih st1 d.package (hd d (List.mem_cons_self _ _)) hlt2
          obtain ⟨⟨dv, hdv⟩, _, _, _⟩ := topoVisit_post g fuel st1 d.package st4 hst4
          obtain ⟨st5, hst5⟩ := ihd st4
            (fun d2 hd2 => hd d2 (List.mem_cons_of_mem _ hd2))
            (Nat.lt_of_le_of_lt (by rw [hdv]; exact notVisited_append_le g st1.1 dv) hlt2)
          exact ⟨st5, by simp only [topoVisitList]; rw [hst4]; exact hst5⟩
      obtain ⟨st3, hst3⟩ := hlist ((alGet g pkg).getD []) (st.1 ++ [pkg], st.2)
        (fun d hd => targets_mem_allNames g pkg d hd) hlt1
      exact ⟨(st3.1, st3.2 ++ [pkg]), by rw [hst3]⟩

/-! ## Properties of the full sort -/

theorem topoFold_props (g : Graph) :
    ∀ (ks : List String) (st : List String × List String),
      (∀ k ∈ ks, k ∈ allNames g) → (∀ x ∈ st.1, x ∈ st.2) →
      ∃ st2, topoFold g st ks = some st2 ∧
        (∃ dr, st2.2 = st.2 ++ dr) ∧ (∀ x ∈ st2.1, x ∈ st2.2) ∧
        (∀ k ∈ ks, k ∈ st2.2) := by
  intro ks
  induction ks with
  | nil =>
    intro st _ hstk
    exact ⟨st, rfl, ⟨[], by simp⟩, hstk, by simp⟩
  | cons k rest ih =>
    intro st hks hstk
    obtain ⟨st1, hst1⟩ := topoVisit_some g (topoFuel g) st k
      (hks k (List.mem_cons_self _ _)) (notVisited_lt_topoFuel g st.1)
    obtain ⟨⟨dv, hdv⟩, ⟨dr, hdr, _⟩, hmem, hstk1⟩ :=
      topoVisit_post g (topoFuel g) st k st1 hst1
    have hstk1' : ∀ x ∈ st1.1, x ∈ st1.2 := by
      intro x hx
      by_contra hnx
      exact (hstk1 x hx hnx).2 (hstk x (hstk1 x hx hnx).1)
    obtain ⟨st2, hfold, ⟨dr2, hdr2⟩, hstk2, hmem2⟩ := ih st1
      (fun k2 hk2 => hks k2 (List.mem_cons_of_mem _ hk2)) hstk1'
    refine ⟨st2, by simp only [topoFold]; rw [hst1]; exact hfold,
      ⟨dr ++ dr2, by rw [hdr2, hdr, List.append_assoc]⟩, hstk2, ?_⟩
    intro k2 hk2
    rcases List.mem_cons.mp hk2 with hk2 | hk2
    · subst hk2
      rw [hdr2]
      exact List.mem_append_left _ (hstk1' k2 hmem)
    · exact hmem2 k2 hk2

theorem topologicalSort_mem_of_key (g : Graph) (k : String) (hk : k ∈ alKeys g) :
    k ∈ topologicalSort g := by
  unfold topologicalSort
  obtain ⟨st2, hfold, _, _, hmem⟩ := topoFold_props g (alKeys g) ([], [])
    (fun k2 hk2 => keys_mem_allNames g k2 hk2) (by simp)
  rw [hfold]
  exact hmem k hk

/-! ## The driver loop preserves the key set -/

theorem fillLoop_keys :
    ∀ (ks : List String) (m : Graph) (vc : VC) (res : Graph × VC),
      fillLoop (m, vc) ks = .ok res → (∀ k ∈ ks, k ∈ alKeys m) →
      alKeys res.1 = alKeys m := by
  intro ks
  induction ks with
  | nil =>
    intro m vc res h _
    simp only [fillLoop, Except.ok.injEq] at h
    rw [← h]
  | cons k rest ih =>
    intro m vc res h hks
    simp only [fillLoop] at h
    cases hrd : resolveDependencies m (bigFuel m) k [] vc with
    | error e => rw [hrd] at h; simp at h
    | ok st =>
      rw [hrd] at h
      have hkeys : alKeys (alSet m k st.1) = alKeys m :=
        alKeys_alSet_of_mem m k st.1 (hks k (List.mem_cons_self _ _))
      have := ih (alSet m k st.1) st.2 res h
        (fun k2 hk2 => by rw [hkeys]; exact hks k2 (List.mem_cons_of_mem _ hk2))
      rw [this, hkeys]

theorem fillDeps_keys (g : Graph) (vc : VC) (expanded : Graph) (vc2 : VC)
    (h : fillDepsTransitively g vc = .ok (expanded, vc2)) :
    alKeys expanded = alKeys g :=
  fillLoop_keys (alKeys g) g vc (expanded, vc2) h (fun _ hk => hk)

/-! ## Lemmas for cycle detection (C1) -/

theorem consecB_split (g : Graph) (x : String) :
    ∀ (l1 l2 : List String),
      consecB g (l1 ++ x :: l2) = true ↔
        consecB g (l1 ++ [x]) = true ∧ consecB g (x :: l2) = true := by
  intro l1
  induction l1 with
  | nil =>
    intro l2
    simp [consecB]
  | cons a l1 ih =>
    intro l2
    cases l1 with
    | nil =>
      show consecB g (a :: x :: l2) = true ↔
        consecB g (a :: [x]) = true ∧ consecB g (x :: l2) = true
      cases l2 with
      | nil => simp [consecB]
      | cons b l2' =>
        show (edgeB g a x && consecB g (x :: b :: l2')) = true ↔ _
        simp only [consecB, Bool.and_eq_true, Bool.and_true]
        try tauto
    | cons b l1' =>
      show consecB g (a :: ((b :: l1') ++ x :: l2)) = true ↔
        consecB g (a :: ((b :: l1') ++ [x])) = true ∧ consecB g (x :: l2) = true
      rw [show consecB g (a :: ((b :: l1') ++ x :: l2)) =
            (edgeB g a b && consecB g ((b :: l1') ++ x :: l2)) from rfl,
          show consecB g (a :: ((b :: l1') ++ [x])) =
            (edgeB g a b && consecB g ((b :: l1') ++ [x])) from rfl]
      simp only [Bool.and_eq_true]
      rw [ih l2]
      tauto

theorem consecB_congr (m g0 : Graph) :
    ∀ (l : List String), (∀ x ∈ l, alGet m x = alGet g0 x) →
      consecB m l = consecB g0 l := by
  intro l
  induction l with
  | nil => intro _; rfl
  | cons a l ih =>
    intro hag
    cases l with
    | nil => rfl
    | cons b l' =>
      show (edgeB m a b && consecB m (b :: l')) = (edgeB g0 a b && consecB g0 (b :: l'))
      have hedge : edgeB m a b = edgeB g0 a b := by
        unfold edgeB
        rw [hag a (List.mem_cons_self _ _)]
      rw [hedge, ih (fun x hx => hag x (List.mem_cons_of_mem _ hx))]

theorem resolveTransLoop_ok (m : Graph)
    (recur : String → List String → VC → Except String (List Dep × VC)) :
    ∀ (deps : List Dep) (chain : List String) (acc : List Dep) (vc : VC)
      (res : List Dep × VC),
      resolveTransLoop m recur deps chain acc vc = .ok res →
      ∀ dep ∈ deps, alHas m dep.package = true →
        ∃ vcX tds, recur dep.package chain vcX = .ok tds := by
  intro deps
  induction deps with
  | nil =>
    intro chain acc vc res _ dep hdep
    simp at hdep
  | cons d rest ih =>
    intro chain acc vc res h dep hdep hhas
    simp only [resolveTransLoop] at h
    by_cases hd : alHas m d.package = true
    · rw [if_pos hd] at h
      cases hrec : recur d.package chain vc with
      | error e => rw [hrec] at h; simp at h
      | ok st =>
        rw [hrec] at h
        rcases List.mem_cons.mp hdep with hdep | hdep
        · subst hdep
          exact ⟨vc, st, hrec⟩
        · exact ih chain _ _ res h dep hdep hhas
    · rw [if_neg hd] at h
      rcases List.mem_cons.mp hdep with hdep | hdep
      · subst hdep
        exact absurd hhas hd
      · exact ih chain acc vc res h dep hdep hhas

theorem resolveDependencies_ok (m : Graph) (fuel : Nat) (pkg : String)
    (chain : List String) (vc : VC) (res : List Dep × VC)
    (h : resolveDependencies m fuel pkg chain vc = .ok res) :
    pkg ∉ chain ∧
    ∀ dep ∈ (alGet m pkg).getD [], alHas m dep.package = true →
      ∃ vcX tds,
        resolveDependencies m (fuel - 1) dep.package (chain ++ [pkg]) vcX = .ok tds := by
  cases fuel with
  | zero => simp [resolveDependencies] at h
  | succ fuel =>
    simp only [resolveDependencies] at h
    by_cases hc : chain.contains pkg = true
    · rw [if_pos hc] at h
      simp at h
    · rw [if_neg hc] at h
      refine ⟨fun hm => hc ((list_contains_iff _ _).mpr hm), ?_⟩
      intro dep hdep hhas
      have hres := resolveTransLoop_ok m (resolveDependencies m fuel) _ _ _ _ res h
        dep hdep hhas
      simpa using hres

theorem resolve_path_error (m : Graph) :
    ∀ (path : List String) (x z : String) (chain : List String) (vc : VC)
      (fuel : Nat) (res : List Dep × VC),
      consecB m (x :: path ++ [z]) = true →
      (x :: path ++ [z]).all (fun y => alHas m y) = true →
      z ∈ chain ++ x :: path →
      resolveDependencies m fuel x chain vc = .ok res → False := by
  intro path
  induction path with
  | nil =>
    intro x z chain vc fuel res hcons hall hz hok
    have hedge : edgeB m x z = true := by
      have h2 : consecB m [x, z] = true := hcons
      simp only [consecB, Bool.and_eq_true] at h2
      exact h2.1
    have hhasz : alHas m z = true := by
      simp only [List.all_eq_true] at hall
      exact hall z (by simp)
    obtain ⟨hnc, hnext⟩ := resolveDependencies_ok m fuel x chain vc res hok
    obtain ⟨dep, hdep, hdepz⟩ : ∃ dep ∈ (alGet m x).getD [], dep.package = z := by
      simpa [edgeB, List.any_eq_true] using hedge
    obtain ⟨vcX, tds, hok2⟩ := hnext dep hdep (by rw [hdepz]; exact hhasz)
    rw [hdepz] at hok2
    have hz2 : z ∈ chain ++ [x] := by simpa using hz
    exact (resolveDependencies_ok m (fuel - 1) z (chain ++ [x]) vcX tds hok2).1 hz2
  | cons y rest ih =>
    intro x z chain vc fuel res hcons hall hz hok
    have hedge : edgeB m x y = true := by
      have h2 : consecB m (x :: y :: (rest ++ [z])) = true := hcons
      simp only [consecB, Bool.and_eq_true] at h2
      exact h2.1
    have hcons2 : consecB m (y :: rest ++ [z]) = true := by
      have h2 : consecB m (x :: y :: (rest ++ [z])) = true := hcons
      simp only [consecB, Bool.and_eq_true] at h2
      exact h2.2
    have hhasy : alHas m y = true := by
      simp only [List.all_eq_true] at hall
      exact hall y (by simp)
    have halltail : (y :: rest ++ [z]).all (fun w => alHas m w) = true := by
      simp only [List.all_eq_true] at hall ⊢
      intro w hw
      exact hall w (List.mem_cons_of_mem _ hw)
    obtain ⟨hnc, hnext⟩ := resolveDependencies_ok m fuel x chain vc res hok
    obtain ⟨dep, hdep, hdepy⟩ : ∃ dep ∈ (alGet m x).getD [], dep.package = y := by
      simpa [edgeB, List.any_eq_true] using hedge
    obtain ⟨vcX, tds, hok2⟩ := hnext dep hdep (by rw [hdepy]; exact hhasy)
    rw [hdepy] at hok2
    apply ih y z (chain ++ [x]) vcX (fuel - 1) tds hcons2 halltail ?_ hok2
    have hz2 : z ∈ chain ++ x :: y :: rest := hz
    simp only [List.mem_append, List.mem_cons] at hz2 ⊢
    tauto

theorem cycle_rotate (g : Graph) (c : List String) (k : String)
    (hcyc : isCycleChainB g c = true) (hk : k ∈ c) :
    ∃ p, consecB g (k :: p ++ [k]) = true ∧ (∀ y ∈ k :: p ++ [k], y ∈ c) := by
  have hcomp := hcyc
  simp only [isCycleChainB, Bool.and_eq_true] at hcomp
  obtain ⟨⟨⟨hne, hnd⟩, hall⟩, hconsec⟩ := hcomp
  obtain ⟨c1, c2, rfl⟩ := List.append_of_mem hk
  cases c1 with
  | nil =>
    refine ⟨c2, ?_, ?_⟩
    · simpa using hconsec
    · intro y hy
      simp only [List.cons_append, List.mem_cons, List.mem_append,
        List.mem_singleton] at hy
      simp only [List.nil_append, List.mem_cons]
      tauto
  | cons h1 c1' =>
    have hhead : ((h1 :: c1') ++ k :: c2).headD "" = h1 := rfl
    rw [hhead] at hconsec
    have hconsec2 : consecB g ((h1 :: c1') ++ k :: (c2 ++ [h1])) = true := by
      have he : ((h1 :: c1') ++ k :: c2) ++ [h1] = (h1 :: c1') ++ k :: (c2 ++ [h1]) := by
        simp
      rw [he] at hconsec
      exact hconsec
    obtain ⟨hpart1, hpart2⟩ := (consecB_split g k ((h1 :: c1')) (c2 ++ [h1])).mp hconsec2
    refine ⟨c2 ++ h1 :: c1', ?_, ?_⟩
    · have hgoal : consecB g ((k :: c2) ++ h1 :: (c1' ++ [k])) = true := by
        apply (consecB_split g h1 (k :: c2) (c1' ++ [k])).mpr
        constructor
        · exact hpart2
        · exact hpart1
      have he2 : (k :: (c2 ++ h1 :: c1')) ++ [k] = (k :: c2) ++ h1 :: (c1' ++ [k]) := by
        simp
      rw [he2]
      exact hgoal
    · intro y hy
      simp only [List.cons_append, List.mem_cons, List.mem_append,
        List.mem_singleton] at hy
      simp only [List.mem_append, List.mem_cons]
      tauto

theorem fillLoop_cycle_error (g0 : Graph) (c : List String)
    (hcyc : isCycleChainB g0 c = true) :
    ∀ (ks : List String) (m : Graph) (vc : VC),
      (∀ x ∈ c, alGet m x = alGet g0 x) → (∃ k, k ∈ ks ∧ k ∈ c) →
      ∃ e, fillLoop (m, vc) ks = .error e := by
  have hcomp := hcyc
  simp only [isCycleChainB, Bool.and_eq_true] at hcomp
  obtain ⟨⟨⟨hne, hnd⟩, hall⟩, _⟩ := hcomp
  intro ks
  induction ks with
  | nil =>
    intro m vc _ hex
    obtain ⟨k, hk, _⟩ := hex
    simp at hk
  | cons k rest ih =>
    intro m vc hagree hex
    simp only [fillLoop]
    cases hrd : resolveDependencies m (bigFuel m) k [] vc with
    | error e => exact ⟨e, rfl⟩
    | ok st =>
      by_cases hkc : k ∈ c
      · exfalso
        obtain ⟨p, hconsec, hmemc⟩ := cycle_rotate g0 c k hcyc hkc
        have hconsm : consecB m (k :: p ++ [k]) = true := by
          rw [consecB_congr m g0 (k :: p ++ [k]) (fun x hx => hagree x (hmemc x hx))]
          exact hconsec
        have hallm : (k :: p ++ [k]).all (fun y => alHas m y) = true := by
          simp only [List.all_eq_true]
          intro y hy
          have : alHas m y = alHas g0 y := by
            unfold alHas
            rw [hagree y (hmemc y hy)]
          rw [this]
          simp only [List.all_eq_true] at hall
          exact hall y (hmemc y hy)
        exact resolve_path_error m p k k [] vc (bigFuel m) st hconsm hallm
          (by simp) hrd
      · obtain ⟨k2, hk2, hk2c⟩ := hex
        have hex2 : ∃ k2, k2 ∈ rest ∧ k2 ∈ c := by
          rcases List.mem_cons.mp hk2 with h | h
          · subst h
            exact absurd hk2c hkc
          · exact ⟨k2, h, hk2c⟩
        have hagree2 : ∀ x ∈ c, alGet (alSet m k st.1) x = alGet g0 x := by
          intro x hx
          rw [alGet_alSet_ne m k x st.1 (fun he => hkc (he ▸ hx))]
          exact hagree x hx
        exact ih (alSet m k st.1) st.2 hagree2 hex2

/-! ## Every error of the resolver is a cycle error (given adequate fuel) -/

theorem notInChain_append_lt (m : Graph) (chain : List String) (pkg : String)
    (hmem : pkg ∈ alKeys m) (hnc : pkg ∉ chain) :
    notInChain m (chain ++ [pkg]) < notInChain m chain := by
  apply filter_length_lt _ _ _ _ pkg hmem
  · simpa using hnc
  · simp
  · intro x hx
    simp only [decide_eq_true_eq] at hx ⊢
    exact fun hmemv => hx (List.mem_append_left _ hmemv)

theorem notInChain_lt_bigFuel (m : Graph) (chain : List String) :
    notInChain m chain < bigFuel m :=
  Nat.lt_of_le_of_lt (List.length_filter_le _ _) (by unfold bigFuel; omega)

theorem resolveTransLoop_shape (m : Graph)
    (recur : String → List String → VC → Except String (List Dep × VC))
    (chain : List String)
    (H : ∀ pkg vc, alHas m pkg = true →
      (∃ res, recur pkg chain vc = .ok res) ∨
      (∃ ch p, p ∈ ch ∧ recur pkg chain vc = .error (cycleMsg ch p))) :
    ∀ (deps : List Dep) (acc : List Dep) (vc : VC),
      (∃ res, resolveTransLoop m recur deps chain acc vc = .ok res) ∨
      (∃ ch p, p ∈ ch ∧
        resolveTransLoop m recur deps chain acc vc = .error (cycleMsg ch p)) := by
  intro deps
  induction deps with
  | nil =>
    intro acc vc
    exact .inl ⟨(acc, vc), rfl⟩
  | cons d rest ih =>
    intro acc vc
    simp only [resolveTransLoop]
    by_cases hd : alHas m d.package = true
    · rw [if_pos hd]
      rcases H d.package vc hd with ⟨res, hres⟩ | ⟨ch, p, hp, hres⟩
      · rw [hres]
        exact ih _ _
      · rw [hres]
        exact .inr ⟨ch, p, hp, rfl⟩
    · rw [if_neg hd]
      exact ih acc vc

theorem resolveDependencies_shape (m : Graph) :
    ∀ (fuel : Nat) (pkg : String) (chain : List String) (vc : VC),
      pkg ∈ alKeys m → (∀ x ∈ chain, x ∈ alKeys m) → notInChain m chain < fuel →
      (∃ res, resolveDependencies m fuel pkg chain vc = .ok res) ∨
      (∃ ch p, p ∈ ch ∧
        resolveDependencies m fuel pkg chain vc = .error (cycleMsg ch p)) := by
  intro fuel
  induction fuel with
  | zero =>
    intro pkg chain vc _ _ h
    omega
  | succ fuel ih =>
    intro pkg chain vc hpkg hchain hlt
    simp only [resolveDependencies]
    by_cases hc : chain.contains pkg = true
    · rw [if_pos hc]
      exact .inr ⟨chain, pkg, (list_contains_iff _ _).mp hc, rfl⟩
    · rw [if_neg hc]
      have hnc : pkg ∉ chain := fun hm => hc ((list_contains_iff _ _).mpr hm)
      have hchain2 : ∀ x ∈ chain ++ [pkg], x ∈ alKeys m := by
        intro x hx
        rcases List.mem_append.mp hx with hx | hx
        · exact hchain x hx
        · rw [List.mem_singleton.mp hx]
          exact hpkg
      have hlt2 : notInChain m (chain ++ [pkg]) < fuel :=
        Nat.lt_of_lt_of_le (notInChain_append_lt m chain pkg hpkg hnc)
          (Nat.lt_succ_iff.mp hlt)
      exact resolveTransLoop_shape m (resolveDependencies m fuel) (chain ++ [pkg])
        (fun pkg2 vc2 hhas =>
          ih pkg2 (chain ++ [pkg]) vc2 ((alHas_iff m pkg2).mp hhas) hchain2 hlt2)
        _ _ _

theorem fillLoop_shape :
    ∀ (ks : List String) (m : Graph) (vc : VC), (∀ k ∈ ks, k ∈ alKeys m) →
      (∃ res, fillLoop (m, vc) ks = .ok res) ∨
      (∃ ch p, p ∈ ch ∧ fillLoop (m, vc) ks = .error (cycleMsg ch p)) := by
  intro ks
  induction ks with
  | nil =>
    intro m vc _
    exact .inl ⟨(m, vc), rfl⟩
  | cons k rest ih =>
    intro m vc hks
    simp only [fillLoop]
    rcases resolveDependencies_shape m (bigFuel m) k [] vc
        (hks k (List.mem_cons_self _ _)) (by simp) (notInChain_lt_bigFuel m []) with
      ⟨res, hres⟩ | ⟨ch, p, hp, hres⟩
    · rw [hres]
      exact ih (alSet m k res.1) res.2 (fun k2 hk2 => by
        rw [alKeys_alSet_of_mem m k res.1 (hks k (List.mem_cons_self _ _))]
        exact hks k2 (List.mem_cons_of_mem _ hk2))
    · rw [hres]
      exact .inr ⟨ch, p, hp, rfl⟩

/-! ## Paths, ranks and the position function (C5) -/

theorem pathPlus_snoc (g : Graph) {s y t : String} (hp : PathPlus g s y) :
    edgeB g y t = true → PathPlus g s t := by
  induction hp with
  | single h => exact fun he => PathPlus.cons h (.single he)
  | cons h _ ih => exact fun he => PathPlus.cons h (ih he)

theorem ranked_edge (g : Graph) (rank : String → Nat) (hrank : RankedDag g rank)
    {a b : String} (h : edgeB g a b = true) : rank b < rank a := by
  unfold edgeB at h
  cases hget : alGet g a with
  | none => rw [hget] at h; simp at h
  | some deps =>
    rw [hget] at h
    simp only [List.any_eq_true] at h
    obtain ⟨d, hd, hdb⟩ := h
    have hmem : a ∈ alKeys g := (alGet_isSome_iff g a).mp (by rw [hget]; rfl)
    have hlt := hrank a hmem d (by rw [hget]; exact hd)
    rwa [eq_of_beq hdb] at hlt

theorem ranked_path_lt (g : Graph) (rank : String → Nat) (hrank : RankedDag g rank)
    {x y : String} (hp : PathPlus g x y) : rank y < rank x := by
  induction hp with
  | single h => exact ranked_edge g rank hrank h
  | cons h _ ih => exact Nat.lt_trans ih (ranked_edge g rank hrank h)

theorem ranked_irrefl (g : Graph) (rank : String → Nat) (hrank : RankedDag g rank)
    (x : String) : ¬ PathPlus g x x :=
  fun hp => Nat.lt_irrefl _ (ranked_path_lt g rank hrank hp)

theorem posIn_append_left (l l2 : List String) (x : String) (h : x ∈ l) :
    posIn (l ++ l2) x = posIn l x := by
  induction l with
  | nil => simp at h
  | cons a rest ih =>
    by_cases hax : a = x
    · simp [posIn, hax]
    · rcases List.mem_cons.mp h with h2 | h2
      · exact absurd h2.symm hax
      · simp [posIn, hax, ih h2]

theorem posIn_append_last (l : List String) (x : String) (h : x ∉ l) :
    posIn (l ++ [x]) x = l.length := by
  induction l with
  | nil => simp [posIn]
  | cons a rest ih =>
    have hax : a ≠ x := fun he => h (List.mem_cons.mpr (.inl he.symm))
    simp [posIn, hax, ih (fun hm => h (List.mem_cons_of_mem _ hm))]

theorem posIn_lt_length (l : List String) (x : String) (h : x ∈ l) :
    posIn l x < l.length := by
  induction l with
  | nil => simp at h
  | cons a rest ih =>
    by_cases hax : a = x
    · simp [posIn, hax]
    · rcases List.mem_cons.mp h with h2 | h2
      · exact absurd h2.symm hax
      · simp only [posIn, if_neg hax, List.length_cons]
        exact Nat.succ_lt_succ (ih h2)

/-! ## The post-order result respects the dependency order (C5) -/

theorem topoVisitList_strong (g : Graph) (rank : String → Nat)
    (_hrank : RankedDag g rank)
    (recur : List String × List String → String → Option (List String × List String))
    (pkg : String)
    (Hpost : ∀ st p st2, recur st p = some st2 → VisitPost st st2 p)
    (Hstrong : ∀ st p st2, recur st p = some st2 →
      (∀ x ∈ st.2, x ∈ st.1) → StrongOrder g st.2 →
      (∀ s ∈ st.1, s ∉ st.2 → s = p ∨ PathPlus g s p) →
      (∀ x ∈ st2.2, x ∈ st2.1) ∧ StrongOrder g st2.2) :
    ∀ (deps : List Dep) (st st2 : List String × List String),
      topoVisitList recur st deps = some st2 →
      (∀ x ∈ st.2, x ∈ st.1) → StrongOrder g st.2 →
      (∀ s ∈ st.1, s ∉ st.2 → s = pkg ∨ PathPlus g s pkg) →
      (∀ d ∈ deps, edgeB g pkg d.package = true) →
      (∀ x ∈ st2.2, x ∈ st2.1) ∧ StrongOrder g st2.2 ∧
      (∀ s ∈ st2.1, s ∉ st2.2 → s = pkg ∨ PathPlus g s pkg) := by
  intro deps
  induction deps with
  | nil =>
    intro st st2 h hrv hso hsp _
    simp only [topoVisitList, Option.some.injEq] at h
    subst h
    exact ⟨hrv, hso, hsp⟩
  | cons d rest ih =>
    intro st st2 h hrv hso hsp hdeps
    simp only [topoVisitList] at h
    cases hrec : recur st d.package with
    | none => rw [hrec] at h; simp at h
    | some st1 =>
      rw [hrec] at h
      have hedge : edgeB g pkg d.package = true := hdeps d (List.mem_cons_self _ _)
      have hspc : ∀ s ∈ st.1, s ∉ st.2 → s = d.package ∨ PathPlus g s d.package := by
        intro s hs hns
        right
        rcases hsp s hs hns with heq | hpath
        · rw [heq]
          exact PathPlus.single hedge
        · exact pathPlus_snoc g hpath hedge
      obtain ⟨hrv1, hso1⟩ := Hstrong st d.package st1 hrec hrv hso hspc
      have hsp1 : ∀ s ∈ st1.1, s ∉ st1.2 → s = pkg ∨ PathPlus g s pkg := by
        intro s hs hns
        have h2 := (Hpost st d.package st1 hrec).2.2.2 s hs hns
        exact hsp s h2.1 h2.2
      exact ih st1 st2 h hrv1 hso1 hsp1
        (fun d2 hd2 => hdeps d2 (List.mem_cons_of_mem _ hd2))

theorem topoVisit_strong (g : Graph) (rank : String → Nat)
    (hrank : RankedDag g rank) :
    ∀ (fuel : Nat) (st : List String × List String) (pkg : String)
      (st2 : List String × List String),
      topoVisit g fuel st pkg = some st2 →
      (∀ x ∈ st.2, x ∈ st.1) → StrongOrder g st.2 →
      (∀ s ∈ st.1, s ∉ st.2 → s = pkg ∨ PathPlus g s pkg) →
      (∀ x ∈ st2.2, x ∈ st2.1) ∧ StrongOrder g st2.2 := by
  intro fuel
  induction fuel with
  | zero => intro st pkg st2 h; simp [topoVisit] at h
  | succ fuel ih =>
    intro st pkg st2 h hrv hso hsp
    simp only [topoVisit] at h
    by_cases hc : st.1.contains pkg = true
    · rw [if_pos hc] at h
      simp only [Option.some.injEq] at h
      subst h
      exact ⟨hrv, hso⟩
    · rw [if_neg hc] at h
      cases hlist : topoVisitList (topoVisit g fuel) (st.1 ++ [pkg], st.2)
          ((alGet g pkg).getD []) with
      | none => rw [hlist] at h; simp at h
      | some st3 =>
        rw [hlist] at h
        simp only [Option.some.injEq] at h
        have hpkg : pkg ∉ st.1 := fun hm => hc ((list_contains_iff _ _).mpr hm)
        have hrv1 : ∀ x ∈ ((st.1 ++ [pkg], st.2) :
            List String × List String).2, x ∈ (st.1 ++ [pkg], st.2).1 :=
          fun x hx => List.mem_append_left _ (hrv x hx)
        have hsp1 : ∀ s ∈ (st.1 ++ [pkg]), s ∉ st.2 →
            s = pkg ∨ PathPlus g s pkg := by
          intro s hs hns
          rcases List.mem_append.mp hs with hs | hs
          · exact hsp s hs hns
          · exact .inl (List.mem_singleton.mp hs)
        have hedges : ∀ d ∈ (alGet g pkg).getD [], edgeB g pkg d.package = true := by
          intro d hd
          simp only [edgeB, List.any_eq_true]
          exact ⟨d, hd, by simp⟩
        obtain ⟨hrv3, hso3, hsp3⟩ := topoVisitList_strong g rank hrank
          (topoVisit g fuel) pkg
          (fun st p st2 hx => topoVisit_post g fuel st p st2 hx)
          (fun st p st2 hx => ih st p st2 hx)
          ((alGet g pkg).getD []) (st.1 ++ [pkg], st.2) st3 hlist hrv1 hso hsp1 hedges
        obtain ⟨⟨dv, hdv⟩, ⟨dr, hdr, hfr⟩, hdmem, hstk⟩ :=
          topoVisitList_post (topoVisit g fuel)
            (fun st p st2 hx => topoVisit_post g fuel st p st2 hx)
            ((alGet g pkg).getD []) (st.1 ++ [pkg], st.2) st3 hlist
        have hpkg_nr : pkg ∉ st3.2 := by
          rw [hdr]
          intro hmem
          rcases List.mem_append.mp hmem with hmem | hmem
          · exact hpkg (hrv pkg hmem)
          · exact hfr pkg hmem (List.mem_append_right _ (by simp))
        subst h
        constructor
        · intro x hx
          rcases List.mem_append.mp hx with hx | hx
          · exact hrv3 x hx
          · rw [List.mem_singleton.mp hx, hdv]
            exact List.mem_append_left _ (List.mem_append_right _ (by simp))
        · intro q hq t hedge
          rcases List.mem_append.mp hq with hq | hq
          · obtain ⟨ht, hlt⟩ := hso3 q hq t hedge
            refine ⟨List.mem_append_left _ ht, ?_⟩
            rw [posIn_append_left _ _ _ ht, posIn_append_left _ _ _ hq]
            exact hlt
          · have hqp : q = pkg := List.mem_singleton.mp hq
            subst hqp
            obtain ⟨d, hd, hdt⟩ : ∃ d ∈ (alGet g q).getD [], d.package = t := by
              simpa [edgeB, List.any_eq_true] using hedge
            have htin1 : t ∈ st3.1 := hdt ▸ hdmem d hd
            have htin2 : t ∈ st3.2 := by
              by_contra htnr
              have h2 := hstk t htin1 htnr
              rcases List.mem_append.mp h2.1 with ht1 | ht1
              · rcases hsp t ht1 h2.2 with heq | hpath
                · rw [heq] at ht1
                  exact hpkg ht1
                · exact absurd (pathPlus_snoc g hpath hedge)
                    (ranked_irrefl g rank hrank t)
              · rw [List.mem_singleton.mp ht1] at hedge
                exact absurd (PathPlus.single hedge) (ranked_irrefl g rank hrank q)
            refine ⟨List.mem_append_left _ htin2, ?_⟩
            rw [posIn_append_left _ _ _ htin2, posIn_append_last _ _ hpkg_nr]
            exact posIn_lt_length _ _ htin2

theorem topoFold_strong (g : Graph) (rank : String → Nat)
    (hrank : RankedDag g rank) :
    ∀ (ks : List String) (st st2 : List String × List String),
      topoFold g st ks = some st2 →
      (∀ x ∈ st.1, x ∈ st.2) → (∀ x ∈ st.2, x ∈ st.1) → StrongOrder g st.2 →
      StrongOrder g st2.2 := by
  intro ks
  induction ks with
  | nil =>
    intro st st2 h _ _ hso
    simp only [topoFold, Option.some.injEq] at h
    subst h
    exact hso
  | cons k rest ih =>
    intro st st2 h hse hrv hso
    simp only [topoFold] at h
    cases hv : topoVisit g (topoFuel g) st k with
    | none => rw [hv] at h; simp at h
    | some st1 =>
      rw [hv] at h
      have hposts := topoVisit_post g (topoFuel g) st k st1 hv
      have hse1 : ∀ x ∈ st1.1, x ∈ st1.2 := by
        intro x hx
        by_contra hnx
        have h2 := hposts.2.2.2 x hx hnx
        exact h2.2 (hse x h2.1)
      obtain ⟨hrv1, hso1⟩ := topoVisit_strong g rank hrank (topoFuel g) st k st1 hv
        hrv hso (fun s hs hns => absurd (hse s hs) hns)
      exact ih st1 st2 h hse1 hrv1 hso1

theorem topologicalSort_strong (g : Graph) (rank : String → Nat)
    (hrank : RankedDag g rank) : StrongOrder g (topologicalSort g) := by
  unfold topologicalSort
  obtain ⟨st2, hfold, _, _, _⟩ := topoFold_props g (alKeys g) ([], [])
    (fun k2 hk2 => keys_mem_allNames g k2 hk2) (by simp)
  rw [hfold]
  exact topoFold_strong g rank hrank (alKeys g) ([], []) st2 hfold
    (by simp) (by simp) (fun q hq => absurd hq (List.not_mem_nil q))

theorem strongOrder_path (g : Graph) (res : List String)
    (hso : StrongOrder g res) :
    ∀ (p t : String), PathPlus g p t → p ∈ res →
      t ∈ res ∧ posIn res t < posIn res p := by
  intro p t hp
  induction hp with
  | single h => exact fun hin => hso _ hin _ h
  | cons h _ ih =>
    intro hin
    obtain ⟨hy, hylt⟩ := hso _ hin _ h
    obtain ⟨ht, htlt⟩ := ih hy
    exact ⟨ht, Nat.lt_trans htlt hylt⟩

/-! ## The comparator on well-formed version strings (C6) -/

theorem takeWhile_append_stop (p : Char → Bool) :
    ∀ (l1 l2 : List Char), (∀ c ∈ l1, p c = true) →
      (∀ c r, l2 = c :: r → p c = false) →
      (l1 ++ l2).takeWhile p = l1 ∧ (l1 ++ l2).dropWhile p = l2 := by
  intro l1
  induction l1 with
  | nil =>
    intro l2 _ h2
    cases l2 with
    | nil => simp
    | cons c r =>
      rw [List.nil_append, List.takeWhile_cons, List.dropWhile_cons, h2 c r rfl]
      simp
  | cons a l1 ih =>
    intro l2 h1 h2
    have ha : p a = true := h1 a (List.mem_cons_self _ _)
    obtain ⟨ht, hd⟩ := ih l2 (fun c hc => h1 c (List.mem_cons_of_mem _ hc)) h2
    constructor
    · rw [List.cons_append, List.takeWhile_cons, ha, if_pos rfl, ht]
    · rw [List.cons_append, List.dropWhile_cons, ha, if_pos rfl, hd]

theorem isDigitSeg_spec (d : List Char) (h : isDigitSeg d = true) :
    d ≠ [] ∧ (∀ c ∈ d, c.isDigit = true) ∧ d.length ≤ 16 := by
  simp only [isDigitSeg, Bool.and_eq_true, Bool.not_eq_true', List.all_eq_true,
    decide_eq_true_eq] at h
  obtain ⟨⟨hie, hall⟩, hlen⟩ := h
  refine ⟨?_, hall, hlen⟩
  intro he
  rw [he] at hie
  simp at hie

theorem grabSeg_cons_seg (d rest : List Char) (hd : isDigitSeg d = true)
    (hrest : ∀ c r, rest = c :: r → c.isDigit = false) :
    grabSeg ('.' :: (d ++ rest)) = some (valOfDigits d, rest) := by
  obtain ⟨hne, hall, hlen⟩ := isDigitSeg_spec d hd
  obtain ⟨ht, hdw⟩ := takeWhile_append_stop (·.isDigit) d rest hall hrest
  simp only [grabSeg, ht, hdw]
  rw [if_pos ⟨hne, hlen⟩]

theorem coerceAt_seg (d rest : List Char) (hd : isDigitSeg d = true)
    (hrest : ∀ c r, rest = c :: r → c.isDigit = false) :
    coerceAt (d ++ rest) = some (
      match grabSeg rest with
      | some (b, rest2) =>
        match grabSeg rest2 with
        | some (c, _) => (valOfDigits d, b, c)
        | none => (valOfDigits d, b, 0)
      | none => (valOfDigits d, 0, 0)) := by
  obtain ⟨hne, hall, hlen⟩ := isDigitSeg_spec d hd
  obtain ⟨ht, hdw⟩ := takeWhile_append_stop (·.isDigit) d rest hall hrest
  simp only [coerceAt, ht, hdw]
  rw [if_pos hlen]

theorem coerceSearch_seg (d rest : List Char) (hd : isDigitSeg d = true)
    (hrest : ∀ c r, rest = c :: r → c.isDigit = false) :
    semverCoerce (d ++ rest) = some (
      match grabSeg rest with
      | some (b, rest2) =>
        match grabSeg rest2 with
        | some (c, _) => (valOfDigits d, b, c)
        | none => (valOfDigits d, b, 0)
      | none => (valOfDigits d, 0, 0)) := by
  obtain ⟨hne, hall, _⟩ := isDigitSeg_spec d hd
  obtain ⟨c, cs, rfl⟩ := List.exists_cons_of_ne_nil hne
  have hc : c.isDigit = true := hall c (List.mem_cons_self _ _)
  show coerceSearch (c :: (cs ++ rest)) false = _
  rw [show coerceSearch (c :: (cs ++ rest)) false =
      (if c.isDigit && !false then
        match coerceAt (c :: (cs ++ rest)) with
        | some t => some t
        | none => coerceSearch (cs ++ rest) true
      else coerceSearch (cs ++ rest) c.isDigit) from rfl]
  rw [hc]
  simp only [Bool.not_false, Bool.and_self, if_pos]
  rw [show (c :: (cs ++ rest) : List Char) = (c :: cs) ++ rest from rfl,
    coerceAt_seg (c :: cs) rest hd hrest]

theorem semverCoerce_one (d1 : List Char) (h1 : isDigitSeg d1 = true) :
    semverCoerce (joinDots [d1]) = some (valOfDigits d1, 0, 0) := by
  have h := coerceSearch_seg d1 [] h1 (fun c r hcr => nomatch hcr)
  rw [List.append_nil] at h
  rw [show joinDots [d1] = d1 from rfl, h]
  rfl

theorem semverCoerce_two (d1 d2 : List Char) (h1 : isDigitSeg d1 = true)
    (h2 : isDigitSeg d2 = true) :
    semverCoerce (joinDots [d1, d2]) = some (valOfDigits d1, valOfDigits d2, 0) := by
  have hrest : ∀ c r, ('.' :: d2 : List Char) = c :: r → c.isDigit = false := by
    intro c r hcr
    injection hcr with hc _
    rw [← hc]
    decide
  have hg : grabSeg ('.' :: (d2 ++ [])) = some (valOfDigits d2, []) :=
    grabSeg_cons_seg d2 [] h2 (fun c r hcr => nomatch hcr)
  rw [List.append_nil] at hg
  have h := coerceSearch_seg d1 ('.' :: d2) h1 hrest
  rw [hg] at h
  rw [show joinDots [d1, d2] = d1 ++ '.' :: d2 from rfl, h]
  rfl

theorem semverCoerce_three (d1 d2 d3 : List Char) (h1 : isDigitSeg d1 = true)
    (h2 : isDigitSeg d2 = true) (h3 : isDigitSeg d3 = true) :
    semverCoerce (joinDots [d1, d2, d3]) =
      some (valOfDigits d1, valOfDigits d2, valOfDigits d3) := by
  have hdot : ∀ (w : List Char) (c : Char) (r : List Char),
      ('.' :: w : List Char) = c :: r → c.isDigit = false := by
    intro w c r hcr
    injection hcr with hc _
    rw [← hc]
    decide
  have hg3 : grabSeg ('.' :: (d3 ++ [])) = some (valOfDigits d3, []) :=
    grabSeg_cons_seg d3 [] h3 (fun c r hcr => nomatch hcr)
  rw [List.append_nil] at hg3
  have hg2 : grabSeg ('.' :: (d2 ++ '.' :: d3)) =
      some (valOfDigits d2, '.' :: d3) :=
    grabSeg_cons_seg d2 ('.' :: d3) h2 (hdot d3)
  have h := coerceSearch_seg d1 ('.' :: (d2 ++ '.' :: d3)) h1 (hdot (d2 ++ '.' :: d3))
  rw [hg2] at h
  rw [show joinDots [d1, d2, d3] = d1 ++ '.' :: (d2 ++ '.' :: d3) from rfl, h]
  show some (match grabSeg ('.' :: d3) with
    | some (c, _) => (valOfDigits d1, valOfDigits d2, c)
    | none => (valOfDigits d1, valOfDigits d2, 0)) = _
  rw [hg3]

theorem splitOnDot_ne_nil : ∀ l : List Char, splitOnDot l ≠ [] := by
  intro l
  cases l with
  | nil => simp [splitOnDot]
  | cons c rest =>
    simp only [splitOnDot]
    by_cases hc : c = '.'
    · rw [if_pos hc]
      simp
    · rw [if_neg hc]
      cases hs : splitOnDot rest with
      | nil => simp
      | cons s ss => simp

theorem wfParse_spec (s : String) (ns : List Nat) (mk : Bool)
    (h : wfParse s = some (ns, mk)) :
    (splitOnDot (stripMarker s.toList)).all isDigitSeg = true ∧
    (splitOnDot (stripMarker s.toList)).length ≤ 4 ∧
    ns = (splitOnDot (stripMarker s.toList)).map valOfDigits ∧
    mk = (hasLatest s.toList || hasNext s.toList) := by
  simp only [wfParse] at h
  split at h
  case isTrue hp =>
    injection h with h2
    injection h2 with hns hmk
    exact ⟨hp.1, hp.2, hns.symm, hmk.symm⟩
  case isFalse hp => exact Option.noConfusion h

theorem wfParse_ne_empty (s : String) (x : List Nat × Bool)
    (h : wfParse s = some x) : s ≠ "" := by
  intro he
  rw [he] at h
  have h0 : wfParse "" = none := by decide
  rw [h0] at h
  exact Option.noConfusion h

theorem char_digit_avoid (c : Char) (h : c.isDigit = true) :
    c ≠ ' ' ∧ c ≠ '\t' ∧ c ≠ '\n' ∧ c ≠ '\r' ∧ c ≠ '-' ∧ c ≠ '+' ∧
      c ≠ 'x' ∧ c ≠ 'X' := by
  refine ⟨?_, ?_, ?_, ?_, ?_, ?_, ?_, ?_⟩ <;>
    first
    | exact fun he => absurd (he ▸ h) (by decide)

theorem takeWhile_of_all (p : Char → Bool) :
    ∀ l : List Char, l.all p = true → l.takeWhile p = l := by
  intro l
  induction l with
  | nil => intro _; rfl
  | cons c cs ih =>
    intro h
    rw [List.all_cons, Bool.and_eq_true] at h
    rw [List.takeWhile_cons, h.1, if_pos rfl, ih h.2]

theorem jsParseInt_digit_seg (d : List Char) (hne : d ≠ [])
    (hall : ∀ c ∈ d, c.isDigit = true) :
    jsParseInt d = some ((valOfDigits d : Int)) := by
  obtain ⟨c, cs, rfl⟩ := List.exists_cons_of_ne_nil hne
  have hc := hall c (List.mem_cons_self _ _)
  obtain ⟨hsp, htb, hnl, hcr, hmn, hpl, hx, hX⟩ := char_digit_avoid c hc
  have hsgn : ¬(c = '-' ∨ c = '+') := by simp [hmn, hpl]
  have hhex : ¬(c = '0' ∧ (cs.headD ' ' = 'x' ∨ cs.headD ' ' = 'X')) := by
    rintro ⟨h0, hcs⟩
    cases cs with
    | nil => revert hcs; decide
    | cons c2 t =>
      have hc2 := hall c2 (List.mem_cons_of_mem _ (List.mem_cons_self _ _))
      obtain ⟨_, _, _, _, _, _, hx2, hX2⟩ := char_digit_avoid c2 hc2
      rw [List.headD_cons] at hcs
      rcases hcs with hcs | hcs
      · exact hx2 hcs
      · exact hX2 hcs
  have htk : List.takeWhile (fun ch => ch.isDigit) (c :: cs) = c :: cs :=
    takeWhile_of_all _ _ (List.all_eq_true.mpr (fun a ha => hall a ha))
  have hws : List.dropWhile
      (fun ch => decide (ch = ' ' ∨ ch = '\t' ∨ ch = '\n' ∨ ch = '\r'))
      (c :: cs) = c :: cs := by
    rw [List.dropWhile_cons, if_neg]
    simp [hsp, htb, hnl, hcr]
  simp only [jsParseInt]
  rw [hws]
  simp only [List.headD_cons, List.tail_cons]
  rw [show (if c = '-' ∨ c = '+' then cs else c :: cs) = c :: cs from
    if_neg hsgn]
  rw [show (if c = '-' then (-1 : Int) else 1) = 1 from if_neg hmn]
  simp only [List.headD_cons, List.tail_cons]
  rw [if_neg hhex, htk, if_neg (List.cons_ne_nil c cs), one_mul]

theorem build_val (parts : List (List Char))
    (hall : parts.all isDigitSeg = true) :
    jsParseInt (jsOrZero (parts.get? 3)) =
      some ((specBuild (parts.map valOfDigits) : Int)) := by
  cases hg : parts.get? 3 with
  | none =>
    have hg2 : parts[3]? = none := by
      rw [← List.get?_eq_getElem?]
      exact hg
    rw [show jsOrZero none = ['0'] from rfl]
    rw [show jsParseInt ['0'] = some 0 from by decide]
    simp [specBuild, List.get?_eq_getElem?, hg2]
  | some d4 =>
    have hd4 : isDigitSeg d4 = true :=
      List.all_eq_true.mp hall d4 (List.get?_mem hg)
    obtain ⟨hne, hdig, _⟩ := isDigitSeg_spec d4 hd4
    have hg2 : parts[3]? = some d4 := by
      rw [← List.get?_eq_getElem?]
      exact hg
    have hz : jsOrZero (some d4) = d4 := by
      cases d4 with
      | nil => exact absurd rfl hne
      | cons a t => rfl
    rw [hz, jsParseInt_digit_seg d4 hne hdig]
    simp [specBuild, List.get?_eq_getElem?, hg2]

theorem coerce_take3 (parts : List (List Char))
    (hall : parts.all isDigitSeg = true) (hne : parts ≠ []) :
    (semverCoerce (joinDots (parts.take 3))).getD (0, 0, 0) =
      specTriple (parts.map valOfDigits) := by
  cases parts with
  | nil => exact absurd rfl hne
  | cons d1 t1 =>
    cases t1 with
    | nil =>
      have h1 : isDigitSeg d1 = true := by simpa using hall
      rw [show ([d1] : List (List Char)).take 3 = [d1] from rfl,
        semverCoerce_one d1 h1]
      rfl
    | cons d2 t2 =>
      cases t2 with
      | nil =>
        simp only [List.all_cons, Bool.and_eq_true] at hall
        rw [show ([d1, d2] : List (List Char)).take 3 = [d1, d2] from rfl,
          semverCoerce_two d1 d2 hall.1 hall.2.1]
        rfl
      | cons d3 t3 =>
        simp only [List.all_cons, Bool.and_eq_true] at hall
        rw [show (d1 :: d2 :: d3 :: t3).take 3 = [d1, d2, d3] from rfl,
          semverCoerce_three d1 d2 d3 hall.1 hall.2.1 hall.2.2.1]
        rfl

theorem compareTriple_sign (a b : Nat × Nat × Nat) :
    Int.sign (compareTriple a b) = compareTriple a b := by
  obtain ⟨a1, a2, a3⟩ := a
  obtain ⟨b1, b2, b3⟩ := b
  simp only [compareTriple]
  split_ifs <;> rfl

theorem sign_sub_nat (m n : Nat) :
    Int.sign ((m : Int) - n) =
      if m < n then -1 else if n < m then 1 else 0 := by
  rcases Nat.lt_trichotomy m n with h | h | h
  · rw [if_pos h]
    exact Int.sign_eq_neg_one_iff_neg.mpr (by omega)
  · subst h
    rw [if_neg (lt_irrefl m), if_neg (lt_irrefl m)]
    simp
  · rw [if_neg (Nat.lt_asymm h), if_pos h]
    exact Int.sign_eq_one_iff_pos.mpr (by omega)

theorem compareVersions_nonfalsy (s1 s2 : String)
    (hne1 : s1 ≠ "") (hne2 : s2 ≠ "") :
    compareVersions (some s1) (some s2) =
      (if (hasLatest s1.toList || hasNext s1.toList) && !hasLatest s2.toList
          && !hasNext s2.toList then some 1
       else if (hasLatest s2.toList || hasNext s2.toList)
          && !hasLatest s1.toList && !hasNext s1.toList then some (-1)
       else
         let v1Parts := splitOnDot (stripMarker s1.toList)
         let v2Parts := splitOnDot (stripMarker s2.toList)
         let semverCompare :=
           compareTriple ((semverCoerce (joinDots (v1Parts.take 3))).getD (0, 0, 0))
             ((semverCoerce (joinDots (v2Parts.take 3))).getD (0, 0, 0))
         if semverCompare ≠ 0 then some semverCompare
         else
           match jsParseInt (jsOrZero (v1Parts.get? 3)),
                 jsParseInt (jsOrZero (v2Parts.get? 3)) with
           | some b1, some b2 => some (b1 - b2)
           | _, _ => none) := by
  have hf1 : jsFalsy (some s1) = false := by simp [jsFalsy, hne1]
  have hf2 : jsFalsy (some s2) = false := by simp [jsFalsy, hne2]
  unfold compareVersions
  rw [hf1, hf2]
  rfl

theorem compareVersions_wf (s1 s2 : String) (ns1 ns2 : List Nat)
    (mk1 mk2 : Bool) (h1 : wfParse s1 = some (ns1, mk1))
    (h2 : wfParse s2 = some (ns2, mk2)) (hmk : mk1 = mk2) :
    (compareVersions (some s1) (some s2)).map Int.sign =
      some (specNumericCompare ns1 ns2) := by
  obtain ⟨hall1, hlen1, hns1, hmk1⟩ := wfParse_spec s1 ns1 mk1 h1
  obtain ⟨hall2, hlen2, hns2, hmk2⟩ := wfParse_spec s2 ns2 mk2 h2
  subst hns1
  subst hns2
  have hne1 : s1 ≠ "" := wfParse_ne_empty s1 _ h1
  have hne2 : s2 ≠ "" := wfParse_ne_empty s2 _ h2
  have horeq : (hasLatest s1.toList || hasNext s1.toList)
      = (hasLatest s2.toList || hasNext s2.toList) := by
    rw [← hmk1, hmk, hmk2]
  have hcond1 : ((hasLatest s1.toList || hasNext s1.toList) &&
      !hasLatest s2.toList && !hasNext s2.toList) = false := by
    cases hL2 : hasLatest s2.toList <;> cases hN2 : hasNext s2.toList <;>
      simp_all
  have hcond2 : ((hasLatest s2.toList || hasNext s2.toList) &&
      !hasLatest s1.toList && !hasNext s1.toList) = false := by
    cases hL1 : hasLatest s1.toList <;> cases hN1 : hasNext s1.toList <;>
      simp_all
  rw [compareVersions_nonfalsy s1 s2 hne1 hne2, hcond1, hcond2]
  rw [if_neg Bool.false_ne_true, if_neg Bool.false_ne_true]
  simp only [coerce_take3 _ hall1 (splitOnDot_ne_nil _),
    coerce_take3 _ hall2 (splitOnDot_ne_nil _)]
  by_cases ht : compareTriple
      (specTriple ((splitOnDot (stripMarker s1.toList)).map valOfDigits))
      (specTriple ((splitOnDot (stripMarker s2.toList)).map valOfDigits)) = 0
  · rw [if_neg (not_not.mpr ht), build_val _ hall1, build_val _ hall2]
    simp only [Option.map_some']
    rw [sign_sub_nat]
    unfold specNumericCompare
    rw [if_neg (not_not.mpr ht)]
  · rw [if_pos ht]
    simp only [Option.map_some']
    rw [compareTriple_sign]
    unfold specNumericCompare
    rw [if_pos ht]

/-! ## Concrete claims -/

/-- C1: for every input package graph containing a dependency cycle,
resolution fails as a whole with an error (an `Except.error`, so no partial
result exists for any package), whose message is the circular-dependency
message built from an ordered chain of package names followed by the
repeated package, joined by " -> "; and for the concrete cycle
`package-a → package-b → package-a` the message contains
"package-a -> package-b -> package-a". -/
theorem c1_cycle_detection (g : Graph) (c : List String)
    (hcyc : isCycleChainB g c = true) :
    (∃ msg, resolveTransitiveDependenciesWithDetails g none = .error msg ∧
      ∃ ch p, p ∈ ch ∧ msg = cycleMsg ch p) ∧
    (∃ pre post, resolveTransitiveDependenciesWithDetails exC1 none =
      .error (pre ++ "package-a -> package-b -> package-a" ++ post)) := by
  constructor
  · have hcomp := hcyc
    simp only [isCycleChainB, Bool.and_eq_true] at hcomp
    obtain ⟨⟨⟨hne, hnd⟩, hall⟩, _⟩ := hcomp
    have hkeys : ∀ x ∈ c, x ∈ alKeys g := by
      intro x hx
      simp only [List.all_eq_true] at hall
      exact (alHas_iff g x).mp (hall x hx)
    have hhead : ∃ k, k ∈ alKeys g ∧ k ∈ c := by
      cases c with
      | nil => simp at hne
      | cons k0 c' =>
        exact ⟨k0, hkeys k0 (List.mem_cons_self _ _), List.mem_cons_self _ _⟩
    obtain ⟨k0, hk0keys, hk0c⟩ := hhead
    obtain ⟨e, herr⟩ := fillLoop_cycle_error g c hcyc (alKeys g) g []
      (fun _ _ => rfl) ⟨k0, hk0keys, hk0c⟩
    rcases fillLoop_shape (alKeys g) g [] (fun _ hk => hk) with
      ⟨res, hok⟩ | ⟨ch, p, hp, hshape⟩
    · rw [hok] at herr
      exact absurd herr (by simp)
    · refine ⟨cycleMsg ch p, ?_, ch, p, hp, rfl⟩
      unfold resolveTransitiveDependenciesWithDetails
      simp only [fillDepsWithUserDefinedExternalDependencyMap]
      rw [show fillDepsTransitively g [] = .error (cycleMsg ch p) from hshape]
  · exact ⟨"Circular dependency detected: ",
      ". Salesforce does not support circular dependencies between packages.",
      by decide⟩

theorem c1_witness :
    ∃ msg, resolveTransitiveDependenciesWithDetails exC1 none = .error msg ∧
      ∃ ch p, p ∈ ch ∧ msg = cycleMsg ch p :=
  (c1_cycle_detection exC1 ["package-a", "package-b"] (by decide)).1

/-- C5: (a) for an acyclic input graph (witnessed by a rank certificate),
the global order produced by the sorter contains every key and places every
package after all packages it depends on, directly or transitively; (b) in
the resolution pipeline the resolved map is built from exactly that global
order of the expanded graph, and each package's resolved dependency list is
sorted ascending by its targets' positions in it. -/
theorem c5_topological_order (g : Graph) (rank : String → Nat)
    (hrank : RankedDag g rank) :
    (∀ k ∈ alKeys g, k ∈ topologicalSort g) ∧
    (∀ p ∈ topologicalSort g, ∀ t, PathPlus g p t →
      t ∈ topologicalSort g ∧
        posIn (topologicalSort g) t < posIn (topologicalSort g) p) ∧
    (∀ (g2 expanded : Graph) (vc : VC) (r : DependencyResolutionDetails),
      fillDepsTransitively g2 [] = .ok (expanded, vc) →
      resolveTransitiveDependenciesWithDetails g2 none = .ok r →
      r.resolvedDependencies = dedupAndSortAll (topologicalSort expanded) expanded ∧
      ∀ p l, alGet r.resolvedDependencies p = some l →
        l.Sorted (depLE (topologicalSort expanded))) := by
  refine ⟨fun k hk => topologicalSort_mem_of_key g k hk, ?_, ?_⟩
  · intro p hp t hpath
    exact strongOrder_path g (topologicalSort g)
      (topologicalSort_strong g rank hrank) p t hpath hp
  · intro g2 expanded vc r hfd hok
    obtain ⟨expanded2, vc2, hfd2, hres_eq, _⟩ := resolveTDWD_ok g2 r hok
    rw [hfd] at hfd2
    have h2 : expanded = expanded2 ∧ vc = vc2 := by
      have h3 : (expanded, vc) = (expanded2, vc2) := by simpa using hfd2
      exact ⟨congrArg Prod.fst h3, congrArg Prod.snd h3⟩
    obtain ⟨hexp, _⟩ := h2
    subst hexp
    refine ⟨hres_eq, ?_⟩
    intro p l hl
    rw [hres_eq] at hl
    obtain ⟨hpmem, hleq⟩ :=
      (resolved_alGet_iff (topologicalSort expanded) expanded p l).mp hl
    rw [hleq]
    unfold sortDeps
    haveI : IsTotal Dep (depLE (topologicalSort expanded)) :=
      ⟨fun a b => Int.le_total _ _⟩
    haveI : IsTrans Dep (depLE (topologicalSort expanded)) :=
      ⟨fun a b c hab hbc => le_trans hab hbc⟩
    exact List.sorted_insertionSort _ _

theorem c5_witness : "package-a" ∈ topologicalSort exC4 :=
  (c5_topological_order exC4
    (fun s => if s = "package-c" then 2 else if s = "package-b" then 1 else 0)
    (by unfold RankedDag; decide)).1 "package-a" (by decide)

/-- C4: version arbitration end-to-end.  For the input where `package-c`
directly depends on `package-b` and on `package-a@1.1.0.LATEST` while
`package-b` depends on `package-a@1.0.0.LATEST`, `package-c`'s resolved
list contains exactly one entry for `package-a`, at version `1.1.0.LATEST`,
and `package-a` appears before `package-b`. -/
theorem c4_version_arbitration :
    (resolveTransitiveDependencies exC4 none).map (fun m => alGet m "package-c") =
      .ok (some exC4res) ∧
    exC4res.countP (fun d => d.package == "package-a") = 1 ∧
    exC4res.contains ⟨"package-a", some "1.1.0.LATEST"⟩ = true ∧
    exC4res.findIdx (fun d => d.package == "package-a") <
      exC4res.findIdx (fun d => d.package == "package-b") := by decide

/-- C9: contributor tracking.  In the shared-dependency example,
`root-package`'s detail entry for `shared-dep` is marked transitive
(`isDirect := false`) and lists exactly the contributors `package-a` and
`package-b`, in that order. -/
theorem c9_contributor_tracking :
    (resolveTransitiveDependenciesWithDetails exC9 none).map
        (fun r => (alGet r.details "root-package").bind (fun dl => alGet dl "shared-dep")) =
      .ok (some ⟨"1.0.0.LATEST", false, ["package-a", "package-b"]⟩) := by decide

/-- C2 is falsified as stated: `exC2a` and `exC2b` contain the same packages
with the same direct dependencies (the association lists are permutations of
each other) yet resolution returns differently ordered resolved lists. -/
theorem c2_counterexample :
    exC2a.Perm exC2b ∧ exC2a ≠ exC2b ∧
    resolveTransitiveDependencies exC2a none ≠ resolveTransitiveDependencies exC2b none := by
  refine ⟨?_, by decide, by decide⟩
  decide

/-- C2 amended: resolution of a fixed input list is deterministic, but it is
*not* independent of the input list order: reordering the input can reorder
each package's resolved dependency list.  In the example the two runs agree
on the key set and, for every package, on the set of resolved entries —
only the order inside `package-c`'s list differs. -/
theorem c2_amended :
    (∀ g ext, resolveTransitiveDependencies g ext = resolveTransitiveDependencies g ext) ∧
    ((resolveTransitiveDependencies exC2a none).toOption.bind (fun m1 =>
      (resolveTransitiveDependencies exC2b none).toOption.map (fun m2 =>
        decide ((alKeys m1).Perm (alKeys m2)) &&
        ((alKeys m1).all fun k =>
          decide (((alGet m1 k).getD []).Perm ((alGet m2 k).getD []))) &&
        (alGet m1 "package-c" != alGet m2 "package-c")))) = some true :=
  ⟨fun _ _ => rfl, by decide⟩

/-- C3 is falsified as stated: the direct-edge map *is* mutated in place
during closure computation.  After the driver loop has processed the first
key `b`, the very map that later expansions read holds `b`'s expanded
closure `[c, d]`, no longer the original direct edge list `[c]`. -/
theorem c3_counterexample :
    (fillLoop (exC3, []) ["b"]).map (fun st => alGet st.1 "b") =
      .ok (some [⟨"c", none⟩, ⟨"d", none⟩]) ∧
    alGet exC3 "b" = some [⟨"c", none⟩] ∧
    (fillLoop (exC3, []) ["b"]).map (fun st => alGet st.1 "b") ≠
      .ok (alGet exC3 "b") := by decide

/-- C3 amended: the direct-edge map is updated in place after each package's
expansion, so later expansions observe the already-expanded entries of
earlier-processed packages; in the example this is harmless — every
package's final expanded list coincides with the list obtained by expanding
it against the original, unmodified map. -/
theorem c3_amended :
    (fillLoop (exC3, []) ["b"]).map (fun st => alGet st.1 "b") ≠
      .ok (alGet exC3 "b") ∧
    (fillDepsTransitively exC3 []).map (fun st =>
      (alKeys exC3).all (fun k =>
        alGet st.1 k ==
          (resolveDependencies exC3 (bigFuel exC3) k [] []).toOption.map (·.1))) =
      .ok true := by decide

/-- C7 is falsified as stated: comparing a version with a non-numeric fourth
segment against the same version without it does *not* yield an equal
(zero) result — the build-number subtraction produces `NaN` (modelled as
`none`). -/
theorem c7_counterexample :
    compareVersions (some "1.0.0.x") (some "1.0.0") = none ∧
    (none : Option Int) ≠ some 0 := by decide

/-- C7 amended: the comparator never throws (it is a total function in this
embedding) and a fully unparseable version is coerced to `0.0.0`; but a
non-numeric fourth segment yields `NaN` rather than zero — which every call
site's `> 0` test treats as "not greater", in both comparison orders, so a
single bad version string still cannot fail resolution. -/
theorem c7_amended :
    compareVersions (some "garbage") (some "0.0.0") = some 0 ∧
    compareVersions (some "garbage") (some "junk") = some 0 ∧
    compareVersions (some "garbage") (some "1.0.0") = some (-1) ∧
    compareVersions (some "1.0.0.x") (some "1.0.0") = none ∧
    cmpGt (some "1.0.0.x") (some "1.0.0") = false ∧
    cmpGt (some "1.0.0") (some "1.0.0.x") = false ∧
    (resolveTransitiveDependencies exC7 none).map (fun _ => ()) = .ok () := by decide

/-- C8 is falsified as stated: the resolved-dependencies map contains an
entry for `x`, a name that is only referenced as a dependency target and is
not an input package. -/
theorem c8_counterexample :
    (resolveTransitiveDependencies exC8 none).map (fun m => alHas m "x") = .ok true ∧
    alHas exC8 "x" = false := by decide

/-- C8 amended: the resolved-dependencies map covers every input package
(and, as the counterexample `exC8` shows, may additionally contain entries
for names that only occur as dependency targets, with empty lists); the
details map has an entry for a package iff that package's resolved
dependency list is nonempty. -/
theorem c8_amended (g : Graph) (r : DependencyResolutionDetails)
    (h : resolveTransitiveDependenciesWithDetails g none = .ok r) :
    (∀ k ∈ alKeys g, (alGet r.resolvedDependencies k).isSome = true) ∧
    (∀ k l, alGet r.resolvedDependencies k = some l →
      ((alGet r.details k).isSome = true ↔ l ≠ [])) := by
  obtain ⟨expanded, vc, hfd, hres_eq, hdet_eq⟩ := resolveTDWD_ok g r h
  have hkeys : alKeys expanded = alKeys g := fillDeps_keys g [] expanded vc hfd
  constructor
  · intro k hk
    have hk2 : k ∈ topologicalSort expanded :=
      topologicalSort_mem_of_key expanded k (by rw [hkeys]; exact hk)
    rw [hres_eq,
      (resolved_alGet_iff (topologicalSort expanded) expanded k _).mpr ⟨hk2, rfl⟩]
    rfl
  · intro k l hres
    rw [hres_eq] at hres
    obtain ⟨hk2, hleq⟩ :=
      (resolved_alGet_iff (topologicalSort expanded) expanded k l).mp hres
    have hgetd :
        (alGet (dedupAndSortAll (topologicalSort expanded) expanded) k).getD [] = l := by
      rw [hres]
      rfl
    rw [hdet_eq, details_alGet_isSome_iff, hgetd]
    constructor
    · rintro ⟨_, hlen⟩
      exact List.length_pos.mp hlen
    · intro hne
      exact ⟨hk2, List.length_pos.mpr hne⟩

theorem c8_amended_witness : (alGet exC8res.resolvedDependencies "a").isSome = true :=
  (c8_amended exC8 exC8res (by decide)).1 "a" (by decide)

/-- C10 is falsified as stated: `p` explicitly declares `d` in the input
manifest (at version `1.0.0`), yet `p`'s detail entry for `d` is marked
`isDirect := false`, because arbitration resolved `d` to `2.0.0` and the
directness test requires the exact resolved version to be declared. -/
theorem c10_counterexample :
    alGet exC10 "p" = some [⟨"d", some "1.0.0"⟩, ⟨"q", none⟩] ∧
    (resolveTransitiveDependenciesWithDetails exC10 none).map
        (fun r => ((alGet r.details "p").bind (fun dl => alGet dl "d")).map (·.isDirect)) =
      .ok (some false) := by decide

/-- C10 amended: in the details map, a dependency `D` in `P`'s resolved list
is marked `isDirect := true` iff the input manifest declares, for `P`, an
edge to the same target name with exactly the resolved version string; a
dependency whose resolved version differs from every declaration by `P` is
marked transitive even when `P` declares `D` at another version. -/
theorem c10_amended (g : Graph) (r : DependencyResolutionDetails)
    (h : resolveTransitiveDependenciesWithDetails g none = .ok r)
    (p : String) (l : List Dep) (hres : alGet r.resolvedDependencies p = some l)
    (dep : Dep) (hdep : dep ∈ l) :
    ∃ dl det, alGet r.details p = some dl ∧ alGet dl dep.package = some det ∧
      det.version = verOrUnknown dep.versionNumber ∧
      (det.isDirect = true ↔ ∃ d0 ∈ (alGet g p).getD [],
        d0.package = dep.package ∧ d0.versionNumber = dep.versionNumber) := by
  obtain ⟨expanded, vc, hfd, hres_eq, hdet_eq⟩ := resolveTDWD_ok g r h
  rw [hres_eq] at hres
  obtain ⟨hpmem, hleq⟩ :=
    (resolved_alGet_iff (topologicalSort expanded) expanded p l).mp hres
  have hgetd :
      (alGet (dedupAndSortAll (topologicalSort expanded) expanded) p).getD [] = l := by
    rw [hres]
    rfl
  have hlen :
      ((alGet (dedupAndSortAll (topologicalSort expanded) expanded) p).getD []).length > 0 := by
    rw [hgetd]
    exact List.length_pos.mpr (List.ne_nil_of_mem hdep)
  have hnodup : (l.map (·.package)).Nodup := by
    rw [hleq]
    exact sortDeps_nodup_package _ _ (dedupDeps_nodup _)
  have hdetval := details_alGet_eq (topologicalSort expanded)
    (dedupAndSortAll (topologicalSort expanded) expanded) g vc p hpmem hlen
  rw [hgetd] at hdetval
  have hobj := alGet_foldl_deps l
    (fun d => (⟨verOrUnknown d.versionNumber,
      ((alGet g p).getD []).any
        (fun d0 => d0.package = d.package ∧ d0.versionNumber = d.versionNumber),
      vcLookup vc d.package (d.versionNumber.getD "")⟩ : DependencyDetail))
    [] dep hdep hnodup
  refine ⟨genDetailsFor g vc p l, _, ?_, hobj, rfl, ?_⟩
  · rw [hdet_eq]
    exact hdetval
  · simp [List.any_eq_true]

theorem c10_amended_witness :
    ∃ dl det, alGet exC10res.details "p" = some dl ∧ alGet dl "d" = some det ∧
      det.version = verOrUnknown (some "2.0.0") ∧
      (det.isDirect = true ↔ ∃ d0 ∈ (alGet exC10 "p").getD [],
        d0.package = "d" ∧ d0.versionNumber = some "2.0.0") :=
  c10_amended exC10 exC10res (by decide) "p" [⟨"d", some "2.0.0"⟩, ⟨"q", none⟩]
    (by decide) ⟨"d", some "2.0.0"⟩ (by decide)

theorem c2_amended_witness :
    resolveTransitiveDependencies exC2a none = resolveTransitiveDependencies exC2a none :=
  c2_amended.1 exC2a none

/-- C6: the comparator applies its rules in order for every pair of version
strings.  Two missing (JS-falsy) values compare equal, and a missing value
compares lower than any present nonempty value; a value carrying a
`.LATEST`/`.NEXT` marker compares higher than a value with neither marker
regardless of numeric content, in both argument orders; and when both or
neither carry a marker, for well-formed numeric version strings the
comparison agrees in sign with the specification comparator
`specNumericCompare`: the first three dot-separated segments are compared
numerically (missing segments as zero), and on a tie the optional fourth
build-number segment decides (absent build number as zero). -/
theorem c6_comparator_rules :
    (compareVersions none none = some 0 ∧
      ∀ s : String, s ≠ "" →
        compareVersions none (some s) = some (-1) ∧
        compareVersions (some s) none = some 1) ∧
    (∀ s1 s2 : String, s1 ≠ "" → s2 ≠ "" →
      (hasLatest s1.toList || hasNext s1.toList) = true →
      (hasLatest s2.toList || hasNext s2.toList) = false →
      compareVersions (some s1) (some s2) = some 1 ∧
      compareVersions (some s2) (some s1) = some (-1)) ∧
    (∀ (s1 s2 : String) (ns1 ns2 : List Nat) (mk1 mk2 : Bool),
      wfParse s1 = some (ns1, mk1) → wfParse s2 = some (ns2, mk2) →
      mk1 = mk2 →
      (compareVersions (some s1) (some s2)).map Int.sign =
        some (specNumericCompare ns1 ns2)) := by
  refine ⟨⟨rfl, ?_⟩, ?_, ?_⟩
  · intro s hs
    have hf : jsFalsy (some s) = false := by simp [jsFalsy, hs]
    constructor
    · unfold compareVersions
      rw [hf]
      rfl
    · unfold compareVersions
      rw [hf]
      rfl
  · intro s1 s2 hne1 hne2 hm1 hm2
    have hL2 : hasLatest s2.toList = false := by
      cases h : hasLatest s2.toList <;> simp_all
    have hN2 : hasNext s2.toList = false := by
      cases h : hasNext s2.toList <;> simp_all
    constructor
    · rw [compareVersions_nonfalsy s1 s2 hne1 hne2, hm1, hL2, hN2]
      rfl
    · rw [compareVersions_nonfalsy s2 s1 hne2 hne1, hm1, hL2, hN2]
      rfl
  · intro s1 s2 ns1 ns2 mk1 mk2 h1 h2 hmk
    exact compareVersions_wf s1 s2 ns1 ns2 mk1 mk2 h1 h2 hmk

/-- Witness for C6: the absence, marker-dominance and numeric rules
instantiated at concrete version strings (in the numeric instance the
fourth build-number segment decides: 4 < 10). -/
theorem c6_witness :
    compareVersions none (some "1.0.0") = some (-1) ∧
    compareVersions (some "2.0.0.LATEST") (some "3.0.0") = some 1 ∧
    (compareVersions (some "1.2.3.4") (some "1.2.3.10")).map Int.sign =
      some (-1) := by
  refine ⟨(c6_comparator_rules.1.2 "1.0.0" (by decide)).1,
    (c6_comparator_rules.2.1 "2.0.0.LATEST" "3.0.0" (by decide) (by decide)
      (by decide) (by decide)).1, ?_⟩
  have h := c6_comparator_rules.2.2 "1.2.3.4" "1.2.3.10"
    [1, 2, 3, 4] [1, 2, 3, 10] false false (by decide) (by decide) rfl
  rw [h]
  decide

end Sfp
